import Mathlib

/-!
Verification of the core of `noise2read`'s `data_generation.py` (class
`DataGneration`): the edit-distance read-graph construction, the
per-component genuine/ambiguous error classifier, the isolated-negative
extractor, the UMI scoring variant, and the error-type annotator.

Python strings are embedded as `List Char`; Python's heterogeneous record
lists as `List Val`; raised exceptions as `Except PyErr`; the in-place
`flag` node attribute as an explicit `Read → Bool` state threaded in and
out of each pass.
-/

/-- A sequencing read: a Python string, embedded as its character list. -/
abbrev Read := List Char

/-- An entry of a Python record list: either a string or an integer. -/
inductive Val where
  | s : Read → Val
  | i : Int → Val
deriving DecidableEq, Repr

/-- A record row (`new_line_list` / `line` in the source): a Python list. -/
abbrev Rec := List Val

/-- Exceptions the embedded code can raise. `valueError` is the explicit
`raise ValueError` in `err_type_classification`; `indexError` is a Python
out-of-range string index; `nameError` models use of an unbound local
(`isolates` in `extract_isolated_negatives` on a connected graph);
`nxPointless` models `networkx.is_connected` on the null graph. -/
inductive PyErr where
  | valueError
  | indexError
  | nameError
  | nxPointless
deriving DecidableEq, Repr

/-- The configuration fields the core reads (`config` in the source). -/
structure Cfg where
  high_freq_thre : Nat
  max_error_freq : Nat
  ambiguous_error_node_degree : Nat
deriving Repr

/-- The input `line` of `err_type_classification`:
`[read1, read1_frequency, read1_degree, read2, read2_frequency, read2_degree]`. -/
structure Line where
  read1 : Read
  read1_fre : Nat
  read1_deg : Nat
  read2 : Read
  read2_fre : Nat
  read2_deg : Nat
deriving DecidableEq, Repr

/-- `line` as the Python list it is in the source (edit-distance-2 record). -/
def lineToList (l : Line) : Rec :=
  [.s l.read1, .i l.read1_fre, .i l.read1_deg, .s l.read2, .i l.read2_fre, .i l.read2_deg]

/-- Levenshtein edit distance (`editdistance.eval` in the source):
insertions, deletions and substitutions, unit cost each. -/
def editDistance : List Char → List Char → Nat
  | [], ys => ys.length
  | x :: xs, [] => (x :: xs).length
  | x :: xs, y :: ys =>
    if x = y then editDistance xs ys
    else 1 + min (editDistance xs ys)
      (min (editDistance (x :: xs) ys) (editDistance xs (y :: ys)))
termination_by a b => a.length + b.length
decreasing_by all_goals simp_arith

/-- Python single-character indexing `s[i]`: negative indices count from the
end; an out-of-range index raises `IndexError`. -/
def pyIndex (l : List Char) (i : Int) : Except PyErr Char :=
  if i < 0 then
    let j : Int := i + l.length
    if 0 ≤ j then
      match l.get? j.toNat with
      | some c => .ok c
      | none => .error .indexError
    else .error .indexError
  else
    match l.get? i.toNat with
    | some c => .ok c
    | none => .error .indexError

/-- Normalisation of one bound of a Python slice `s[a:b]`: negative values
count from the end (clamped at 0), positive values are clamped at the
length. -/
def sliceBound (len : Nat) (i : Int) : Nat :=
  if i < 0 then (i + len).toNat else min i.toNat len

/-- Python slicing `s[a:b]` (step 1): total, clamping both bounds. -/
def pySlice (l : List Char) (a b : Int) : List Char :=
  (l.take (sliceBound l.length b)).drop (sliceBound l.length a)

/-- The scanning loops of `err_type_classification`: index of the first
position where the two reads disagree, scanning up to the shorter length;
`none` when they agree on the whole common prefix. -/
def firstMismatch : List Char → List Char → Option Nat
  | x :: xs, y :: ys =>
    if x = y then (firstMismatch xs ys).map (· + 1) else some 0
  | _, _ => none

/-- The body of `err_type_classification` after the distance check: computes
`(first, second, f_kmer, s_kmer, position)` for the three length cases of
the source (equal lengths, `f_len < s_len`, `f_len > s_len`). -/
def errBody (read1 read2 : Read) : Except PyErr (Char × Char × Read × Read × Int) :=
  let f_len := read1.length
  let s_len := read2.length
  if f_len = s_len then
    let position : Int :=
      match firstMismatch read1 read2 with
      | some i => (i : Int)
      | none => -1
    do
      let first ← pyIndex read1 position
      let second ← pyIndex read2 position
      if position = 0 then
        .ok (first, second, pySlice read1 0 2, pySlice read2 0 2, position)
      else if position = (f_len : Int) then
        .ok (first, second, pySlice read1 (-2) (f_len : Int),
             pySlice read2 (-2) (s_len : Int), position)
      else
        .ok (first, second, pySlice read1 (position - 1) (position + 2),
             pySlice read2 (position - 1) (position + 2), position)
  else if f_len < s_len then
    let position : Int :=
      match firstMismatch read1 read2 with
      | some i => (i : Int)
      | none => (f_len : Int)
    do
      let second ← pyIndex read2 position
      if position = 0 then do
        let c ← pyIndex read1 0
        .ok ('X', second, ['X', c], pySlice read2 0 2, position)
      else if position = (f_len : Int) then do
        let c ← pyIndex read1 (-1)
        .ok ('X', second, [c, 'X'], pySlice read2 (-2) (s_len : Int), position)
      else do
        let c1 ← pyIndex read1 (position - 1)
        let c2 ← pyIndex read1 position
        .ok ('X', second, [c1, 'X', c2],
             pySlice read2 (position - 1) (position + 2), position)
  else
    let position : Int :=
      match firstMismatch read1 read2 with
      | some i => (i : Int)
      | none => (s_len : Int)
    do
      let first ← pyIndex read1 position
      if position = 0 then do
        let c ← pyIndex read2 0
        .ok (first, 'X', pySlice read1 0 2, ['X', c], position)
      else if position = (s_len : Int) then do
        let c ← pyIndex read2 (-1)
        .ok (first, 'X', pySlice read1 (-2) (f_len : Int), [c, 'X'], position)
      else do
        let c1 ← pyIndex read2 (position - 1)
        let c2 ← pyIndex read2 position
        .ok (first, 'X', pySlice read1 (position - 1) (position + 2),
             [c1, 'X', c2], position)

/-- `err_type_classification`: error type, position and flanking k-mers of
two reads assumed adjacent at edit distance 1; raises `ValueError` when the
distance is not 1. Returns
`[read1, read1_fre, read1_deg, errorType, position, f_kmer, s_kmer, read2, read2_fre, read2_deg]`. -/
def err_type_classification (line : Line) : Except PyErr Rec :=
  if editDistance line.read1 line.read2 = 1 then
    (errBody line.read1 line.read2).map (fun t =>
      [.s line.read1, .i line.read1_fre, .i line.read1_deg,
       .s [t.1, '-', t.2.1], .i t.2.2.2.2, .s t.2.2.1, .s t.2.2.2.1,
       .s line.read2, .i line.read2_fre, .i line.read2_deg])
  else .error .valueError

/-- The DNA alphabet. -/
def alphabet : List Char := ['A', 'C', 'G', 'T']

/-- Modelled from the spec: `enumerate_ed1_seqs` lives in
`noise2read/utils.py`, which is not under `src/`. Spec 4.1: "for every
position, substitute with every alphabet symbol other than the original". -/
def enumerate_ed1_seqs (read : Read) : List Read :=
  (List.range read.length).flatMap (fun p =>
    (alphabet.filter (fun c => read.get? p ≠ some c)).map (fun c => read.set p c))

/-- Modelled from the spec: `enumerate_ed2_seqs` lives in
`noise2read/utils.py`, which is not under `src/`. Spec 4.1: "same but over
every unordered pair of positions with every combination of two
substitutions". -/
def enumerate_ed2_seqs (read : Read) : List Read :=
  (List.range read.length).flatMap (fun p =>
    ((List.range read.length).filter (fun q => p < q)).flatMap (fun q =>
      (alphabet.filter (fun c => read.get? p ≠ some c)).flatMap (fun c =>
        (alphabet.filter (fun d => read.get? q ≠ some d)).map (fun d =>
          (read.set p c).set q d))))

/-- `real_ed1_seqs`: intersect a read's enumerated distance-1 neighbourhood
with the dataset sequences and pair each survivor with the query read. -/
def real_ed1_seqs (total_seqs : List Read) (read : Read) : List (Read × Read) :=
  ((enumerate_ed1_seqs read).filter (fun s => s ∈ total_seqs)).map (fun s => (read, s))

/-- `real_ed2_seqs`: same as `real_ed1_seqs` but with the distance-2
neighbourhood intersected against the low-frequency reads only. -/
def real_ed2_seqs (low_seqs : List Read) (read : Read) : List (Read × Read) :=
  ((enumerate_ed2_seqs read).filter (fun s => s ∈ low_seqs)).map (fun s => (read, s))

/-- The graph `generate_graph` returns: nodes with counts, and the edge
list accumulated from the per-read neighbour searches. -/
structure GGraph where
  nodes : List (Read × Nat)
  edges : List (Read × Read)
deriving DecidableEq, Repr

/-- Unique sequences in first-occurrence order (`Counter` iteration order). -/
def firstOccur (l : List Read) : List Read :=
  l.foldl (fun acc x => if x ∈ acc then acc else acc ++ [x]) []

/-- `generate_graph`, from the parsed sequence list onward (file parsing is
an external collaborator). `.error 1` is `sys.exit(1)` on absence of
high-frequency reads; `.error 2` stands for the `NameError` Python would hit
for an edit distance other than 1 or 2 (`shared_unique_seqs` unbound), which
in the source also occurs only after the high-frequency check. -/
def generate_graph (cfg : Cfg) (total_seqs : List Read) (edit_dis : Nat) :
    Except Nat GGraph :=
  let unique_seqs := firstOccur total_seqs
  let high_freq := unique_seqs.filter (fun r => cfg.high_freq_thre ≤ total_seqs.count r)
  let low_freq := unique_seqs.filter (fun r => total_seqs.count r < cfg.high_freq_thre)
  if high_freq.isEmpty then .error 1
  else if edit_dis = 1 then
    .ok ⟨unique_seqs.map (fun r => (r, total_seqs.count r)),
         high_freq.flatMap (fun r => real_ed1_seqs unique_seqs r)⟩
  else if edit_dis = 2 then
    .ok ⟨unique_seqs.map (fun r => (r, total_seqs.count r)),
         high_freq.flatMap (fun r => real_ed2_seqs low_freq r)⟩
  else .error 2

/-- A networkx (sub)graph as the classifier sees it: node list in iteration
order, the `count` node attribute, and adjacency lists (in neighbour
iteration order). Degree of a node is the length of its adjacency list. -/
structure PyGraph where
  nodes : List Read
  count : Read → Nat
  adj : Read → List Read

/-- `len(sub_graph.edges()) > 0`. -/
def hasEdges (g : PyGraph) : Bool :=
  g.nodes.any (fun n => !(g.adj n).isEmpty)

/-- Functional update of the `flag` node attribute. -/
def setFlag (f : Read → Bool) (n : Read) : Read → Bool :=
  fun m => if m = n then true else f m

/-- `mkRecord`: the per-branch record construction of the source — the
annotated line for edit distance 1, the raw line otherwise. -/
def mkRecord (ed : Nat) (l : Line) : Except PyErr Rec :=
  if ed = 1 then err_type_classification l else .ok (lineToList l)

/-- Stable insertion placing `x` before the first element with a strictly
smaller count: Python's stable `sort(key=lambda x: x[1], reverse=True)`. -/
def insertCnt (x : Read × Nat) : List (Read × Nat) → List (Read × Nat)
  | [] => [x]
  | y :: ys => if y.2 ≤ x.2 then x :: y :: ys else y :: insertCnt x ys

/-- `nei2count.sort(key=lambda x: x[1], reverse=True)`. -/
def sortCntDesc (l : List (Read × Nat)) : List (Read × Nat) :=
  l.foldr insertCnt []

/-- The `line` built for an ambiguous candidate in the source: note
`cur_nei_degree = sub_graph.degree[nei]` reads the stale loop variable
`nei` — the last neighbour of the child — not the candidate `cre_nei`. -/
def candLine (g : PyGraph) (node : Read) (node_count node_degree : Nat)
    (lastNei : Read) (c : Read × Nat) : Line :=
  ⟨c.1, c.2, (g.adj lastNei).length, node, node_count, node_degree⟩

/-- The `for cre_nei, cur_nei_count in nei2count` loop building `tmp_lst`. -/
def candLoop (cfg : Cfg) (ed : Nat) (g : PyGraph) (node : Read)
    (node_count node_degree : Nat) (lastNei : Read) :
    List (Read × Nat) → Except PyErr (List Rec)
  | [] => .ok []
  | c :: cs =>
    if cfg.high_freq_thre ≤ c.2 then
      match mkRecord ed (candLine g node node_count node_degree lastNei c) with
      | .ok r =>
        (candLoop cfg ed g node node_count node_degree lastNei cs).map (fun rs => r :: rs)
      | .error e => .error e
    else candLoop cfg ed g node node_count node_degree lastNei cs

/-- What one eligible node contributes in `extract_genuine_ambi_errs_subgraph`:
the loop body between the eligibility test and the flag update (genuine
records, ambiguous groups). -/
def nodeEmission (cfg : Cfg) (ed : Nat) (g : PyGraph) (node : Read) :
    Except PyErr (List Rec × List (List Rec)) :=
  let node_count := g.count node
  let node_neis := g.adj node
  let node_degree := node_neis.length
  if node_degree = 1 then
    match node_neis with
    | [] => .error .indexError
    | nei :: _ =>
      let nei_count := g.count nei
      let nei_degree := (g.adj nei).length
      if cfg.high_freq_thre ≤ nei_count then
        (mkRecord ed ⟨nei, nei_count, nei_degree, node, node_count, node_degree⟩).map
          (fun r => ([r], []))
      else .ok ([], [])
  else if node_degree ≤ cfg.ambiguous_error_node_degree then
    let nei2count := (node_neis.filter (fun m => cfg.high_freq_thre ≤ g.count m)).map
      (fun m => (m, g.count m))
    if nei2count.length = 1 then
      match sortCntDesc nei2count with
      | [] => .error .indexError
      | first :: _ =>
        let first_nei_degree := (g.adj first.1).length
        if cfg.high_freq_thre ≤ first.2 then
          (mkRecord ed ⟨first.1, first.2, first_nei_degree, node, node_count, node_degree⟩).map
            (fun r => ([r], []))
        else .ok ([], [])
    else
      let lastNei := node_neis.getLast?.getD []
      (candLoop cfg ed g node node_count node_degree lastNei nei2count).map
        (fun tmp => ([], if tmp.isEmpty then [] else [tmp]))
  else .ok ([], [])

/-- Accumulated state of one classification pass: the genuine list, the
ambiguous group list, and the `flag` node attributes. -/
structure GAState where
  gen : List Rec
  ambi : List (List Rec)
  flags : Read → Bool

/-- One iteration of `for node in nodes_lst`: skip when
`count > max_error_freq` or already flagged, otherwise emit and set the
flag (the flag is reached only if no exception was raised). -/
def processNode (cfg : Cfg) (ed : Nat) (g : PyGraph) (st : GAState) (node : Read) :
    Except PyErr GAState :=
  if g.count node ≤ cfg.max_error_freq ∧ st.flags node = false then
    match nodeEmission cfg ed g node with
    | .ok gsams =>
      .ok ⟨st.gen ++ gsams.1, st.ambi ++ gsams.2, setFlag st.flags node⟩
    | .error e => .error e
  else .ok st

/-- The node loop of `extract_genuine_ambi_errs_subgraph`. -/
def gaLoop (cfg : Cfg) (ed : Nat) (g : PyGraph) :
    List Read → GAState → Except PyErr GAState
  | [], st => .ok st
  | n :: ns, st =>
    match processNode cfg ed g st n with
    | .ok st1 => gaLoop cfg ed g ns st1
    | .error e => .error e

/-- `extract_genuine_ambi_errs_subgraph` on one connected-component
subgraph: classify every node when the component has an edge; the initial
flags are the subgraph's `flag` attributes and the final ones are returned. -/
def extract_genuine_ambi_errs_subgraph (cfg : Cfg) (ed : Nat) (g : PyGraph)
    (flags0 : Read → Bool) :
    Except PyErr (List Rec × List (List Rec) × (Read → Bool)) :=
  if hasEdges g then
    (gaLoop cfg ed g g.nodes ⟨[], [], flags0⟩).map (fun st => (st.gen, st.ambi, st.flags))
  else .ok ([], [], flags0)

/-- One frontier expansion for reachability. -/
def stepReach (g : PyGraph) (s : List Read) : List Read :=
  s ++ (s.flatMap g.adj).filter (fun y => y ∉ s)

/-- Iterated expansion. -/
def reachN (g : PyGraph) : Nat → List Read → List Read
  | 0, s => s
  | n + 1, s => reachN g n (stepReach g s)

/-- `networkx.is_connected`: every node reachable from the first one. -/
def is_connected (g : PyGraph) : Bool :=
  match g.nodes with
  | [] => true
  | x :: _ => g.nodes.all (fun n => n ∈ reachN g g.nodes.length [x])

/-- `extract_isolated_negatives`: the source assigns `isolates` only in the
not-connected branch, then uses it unconditionally, so a connected graph
raises `NameError`; on the null graph `networkx.is_connected` itself
raises. Otherwise one `[read, count, degree]` row per isolated node with
`count ≥ high_freq_thre`. -/
def extract_isolated_negatives (cfg : Cfg) (g : PyGraph) : Except PyErr (List Rec) :=
  if g.nodes.isEmpty then .error .nxPointless
  else if is_connected g then .error .nameError
  else
    let isolates := g.nodes.filter (fun k => (g.adj k).isEmpty)
    .ok (isolates.filterMap (fun k =>
      if cfg.high_freq_thre ≤ g.count k then
        some [.s k, .i (g.count k), .i ((g.adj k).length)]
      else none))

/-- The scored neighbour list of `extract_umi_genuine_errs`:
`(nei, nei_degree * 0.5 + nei_count * 0.5, nei_count)`. The weights are
exact halves, so the float arithmetic of the source is exact and embeds
as rationals. -/
def umiScores (g : PyGraph) (node : Read) : List (Read × ℚ × Nat) :=
  (g.adj node).map (fun nei =>
    (nei, ((g.adj nei).length : ℚ) * 0.5 + ((g.count nei) : ℚ) * 0.5, g.count nei))

/-- Stable insertion for Python's stable descending sort by score. -/
def insertScore (x : Read × ℚ × Nat) : List (Read × ℚ × Nat) → List (Read × ℚ × Nat)
  | [] => [x]
  | y :: ys => if y.2.1 ≤ x.2.1 then x :: y :: ys else y :: insertScore x ys

/-- `nei_degree_count.sort(key=lambda x: x[1], reverse=True)`. -/
def sortScoreDesc (l : List (Read × ℚ × Nat)) : List (Read × ℚ × Nat) :=
  l.foldr insertScore []

/-- State of the UMI pass: genuine records and flags. -/
structure UmiState where
  gen : List Rec
  flags : Read → Bool

/-- One iteration of the node loop of `extract_umi_genuine_errs`: only
nodes with degree 1..4, count ≤ max_error_freq and an unset flag are
considered; the best-scored neighbour becomes the parent only if its count
reaches the threshold, and only then is the flag set. -/
def umiNodeStep (cfg : Cfg) (g : PyGraph) (st : UmiState) (node : Read) :
    Except PyErr UmiState :=
  let node_count := g.count node
  let node_degree := (g.adj node).length
  if 1 ≤ node_degree ∧ node_degree ≤ 4 ∧ node_count ≤ cfg.max_error_freq ∧
      st.flags node = false then
    match sortScoreDesc (umiScores g node) with
    | [] => .error .indexError
    | first :: _ =>
      let first_nei_degree := (g.adj first.1).length
      if cfg.high_freq_thre ≤ first.2.2 then
        match err_type_classification
            ⟨first.1, first.2.2, first_nei_degree, node, node_count, node_degree⟩ with
        | .ok newline => .ok ⟨st.gen ++ [newline], setFlag st.flags node⟩
        | .error e => .error e
      else .ok st
  else .ok st

/-- The node loop of the UMI pass. -/
def umiLoop (cfg : Cfg) (g : PyGraph) :
    List Read → UmiState → Except PyErr UmiState
  | [], st => .ok st
  | n :: ns, st =>
    match umiNodeStep cfg g st n with
    | .ok st1 => umiLoop cfg g ns st1
    | .error e => .error e

/-- The per-subgraph body of `extract_umi_genuine_errs` (the source runs
this for each connected component of the UMI graph in turn). -/
def extract_umi_genuine_errs_subgraph (cfg : Cfg) (g : PyGraph)
    (flags0 : Read → Bool) : Except PyErr (List Rec × (Read → Bool)) :=
  if hasEdges g then
    (umiLoop cfg g g.nodes ⟨[], flags0⟩).map (fun st => (st.gen, st.flags))
  else .ok ([], flags0)

/-- Index of the child read (`EndRead`) in a record of the given mode. -/
def childIdx (ed : Nat) : Nat := if ed = 1 then 7 else 3

/-- High-frequency neighbours of a node, in adjacency order. -/
def highNeis (cfg : Cfg) (g : PyGraph) (n : Read) : List Read :=
  (g.adj n).filter (fun m => cfg.high_freq_thre ≤ g.count m)

/-- No emitted record of either list names `n` as its child. -/
def noChildRecord (ed : Nat) (gens : List Rec) (ambis : List (List Rec)) (n : Read) : Prop :=
  (∀ r ∈ gens, r.get? (childIdx ed) ≠ some (.s n)) ∧
  (∀ grp ∈ ambis, ∀ r ∈ grp, r.get? (childIdx ed) ≠ some (.s n))

/-- `n` is the child of some emitted genuine record. -/
def isGenChild (ed : Nat) (gens : List Rec) (n : Read) : Prop :=
  ∃ r ∈ gens, r.get? (childIdx ed) = some (.s n)

/-- `n` is the child of some candidate of some emitted ambiguous group. -/
def isAmbiChild (ed : Nat) (ambis : List (List Rec)) (n : Read) : Prop :=
  ∃ grp ∈ ambis, ∃ r ∈ grp, r.get? (childIdx ed) = some (.s n)

/-- Spec-side flanking context (claim C4's words): first two characters
when the mismatch is at position 0, the last two when it is at the last
index, otherwise the 3-character window centred on the mismatch. -/
def specFlankKmer (r : Read) (p : Nat) : Read :=
  if p = 0 then r.take 2
  else if p = r.length - 1 then r.drop (r.length - 2)
  else (r.drop (p - 1)).take 3

/-- Concrete single-character reads used by the concrete test graphs. -/
def rA : Read := ['A']

def rC : Read := ['C']

def rG : Read := ['G']

def rT : Read := ['T']

/-- A concrete configuration: threshold 5 (the source default), maximum
error frequency 3 (the source default), ambiguous degree bound 4. -/
def cfg0 : Cfg := ⟨5, 3, 4⟩

/-- All-clear initial flags (`flag=False` as set by `generate_graph`). -/
def flags0 : Read → Bool := fun _ => false

/-- Two-node component: a high-frequency read `rA` (count 5) adjacent to a
low-frequency read `rC` (count 1). -/
def g0 : PyGraph :=
  ⟨[rA, rC],
   fun r => if r = rA then 5 else if r = rC then 1 else 0,
   fun r => if r = rA then [rC] else if r = rC then [rA] else []⟩

/-- The star-with-tail component exhibiting the stale-degree slip of the
ambiguous branch: low child `rA` adjacent to high parents `rC` (degree 1)
and `rG` (degree 2); `rT` pads `rG`'s degree. -/
def g2 : PyGraph :=
  ⟨[rA, rC, rG, rT],
   fun r => if r = rA then 1 else if r = rC then 10 else if r = rG then 10 else 4,
   fun r =>
     if r = rA then [rC, rG]
     else if r = rC then [rA]
     else if r = rG then [rA, rT]
     else if r = rT then [rG] else []⟩

/-- A connected two-node graph (no isolated node at all). -/
def gConn : PyGraph :=
  ⟨[rG, rT],
   fun _ => 9,
   fun r => if r = rG then [rT] else if r = rT then [rG] else []⟩

/-- A disconnected graph: isolated high-frequency `rA` (count 9), isolated
low-frequency `rC` (count 1), and a connected pair `rG`–`rT`. -/
def gDisc : PyGraph :=
  ⟨[rA, rC, rG, rT],
   fun r => if r = rA then 9 else if r = rC then 1 else 9,
   fun r => if r = rG then [rT] else if r = rT then [rG] else []⟩

/-- Reads for the UMI test component (pairwise edit distance 1 to `uAC`). -/
def uAC : Read := ['A', 'C']

def uAA : Read := ['A', 'A']

def uCC : Read := ['C', 'C']

/-- UMI test component: low child `uAC` adjacent to high `uAA` (count 9)
and low leaf `uCC` (count 1, whose only neighbour is low). -/
def gU : PyGraph :=
  ⟨[uAC, uAA, uCC],
   fun r => if r = uAC then 1 else if r = uAA then 9 else if r = uCC then 1 else 0,
   fun r =>
     if r = uAC then [uAA, uCC]
     else if r = uAA then [uAC]
     else if r = uCC then [uAC] else []⟩

/-- The record the UMI pass emits on `gU` for child `uAC` with parent
`uAA`: error type "A-C" at position 1 with 2-mer context via clamping. -/
def uRec : Rec :=
  [.s uAA, .i 9, .i 1, .s ['A', '-', 'C'], .i 1, .s uAA, .s uAC, .s uAC, .i 1, .i 2]

/-- Input sequence list with no high-frequency read (count 1 < 5). -/
def seqs5 : List Read := [rA]

/-- Input sequence list: `rA` occurs five times (high), `rC` once (low). -/
def seqs6 : List Read := [rA, rA, rA, rA, rA, rC]

/-- The graph `generate_graph cfg0 seqs6 1` builds. -/
def gg6 : GGraph := ⟨[(rA, 5), (rC, 1)], [(rA, rC)]⟩

/-! ### Lemmas about Python indexing, slicing and the mismatch scan -/

theorem pyIndex_of_get? (l : List Char) (i : Nat) (c : Char) (h : l.get? i = some c) :
    pyIndex l (i : Int) = .ok c := by
  have h0 : ¬ ((i : Int) < 0) := by omega
  have h' : l[i]? = some c := by simpa [← List.get?_eq_getElem?] using h
  simp [pyIndex, h0, Int.toNat_natCast, h']

theorem pyIndex_ok_of_lt (l : List Char) (i : Nat) (h : i < l.length) :
    ∃ c, pyIndex l (i : Int) = .ok c := by
  have hc : l.get? i = some (l.get ⟨i, h⟩) := List.get?_eq_get h
  exact ⟨_, pyIndex_of_get? l i _ hc⟩

theorem pyIndex_neg_one_ok (l : List Char) (h : l ≠ []) :
    ∃ c, pyIndex l (-1) = .ok c := by
  have hl : 0 < l.length := List.length_pos.mpr h
  have h0 : (-1 : Int) < 0 := by omega
  have h1 : (0 : Int) ≤ -1 + l.length := by omega
  have h2 : ((-1 : Int) + l.length).toNat = l.length - 1 := by omega
  have h3 : l.length - 1 < l.length := by omega
  have hc : l.get? (l.length - 1) = some (l.get ⟨l.length - 1, h3⟩) := List.get?_eq_get h3
  have hc' : l[l.length - 1]? = some (l.get ⟨l.length - 1, h3⟩) := by
    simpa [← List.get?_eq_getElem?] using hc
  refine ⟨l.get ⟨l.length - 1, h3⟩, ?_⟩
  simp [pyIndex, h0, h1, h2, hc']

theorem firstMismatch_lt :
    ∀ (a b : List Char) (i : Nat), firstMismatch a b = some i →
      i < a.length ∧ i < b.length := by
  intro a
  induction a with
  | nil => intro b i h; simp [firstMismatch] at h
  | cons x xs ih =>
    intro b i h
    cases b with
    | nil => simp [firstMismatch] at h
    | cons y ys =>
      by_cases hxy : x = y
      · simp only [firstMismatch, if_pos hxy, Option.map_eq_some'] at h
        rcases h with ⟨j, hj, rfl⟩
        have := ih ys j hj
        simp only [List.length_cons]
        omega
      · simp only [firstMismatch, if_neg hxy, Option.some.injEq] at h
        subst h
        simp only [List.length_cons]
        omega

theorem firstMismatch_eq_some :
    ∀ (p : Nat) (a b : List Char), p < a.length → p < b.length →
      (∀ j, j < p → a.get? j = b.get? j) → a.get? p ≠ b.get? p →
      firstMismatch a b = some p := by
  intro p
  induction p with
  | zero =>
    intro a b ha hb _ hne
    cases a with
    | nil => simp at ha
    | cons x xs =>
      cases b with
      | nil => simp at hb
      | cons y ys =>
        have hxy : x ≠ y := by
          intro h; apply hne; simp [h]
        simp [firstMismatch, hxy]
  | succ q ih =>
    intro a b ha hb hpre hne
    cases a with
    | nil => simp at ha
    | cons x xs =>
      cases b with
      | nil => simp at hb
      | cons y ys =>
        have hxy : x = y := by
          have := hpre 0 (Nat.succ_pos q)
          simpa using this
        have : firstMismatch xs ys = some q := by
          apply ih xs ys (by simpa using ha) (by simpa using hb)
          · intro j hj
            have := hpre (j + 1) (by omega)
            simpa using this
          · intro h; apply hne; simpa using h
        simp [firstMismatch, hxy, this]

/-! ### Lemmas about the edit distance -/

theorem editDistance_nil_left (ys : List Char) : editDistance [] ys = ys.length := by
  cases ys <;> simp [editDistance]

theorem editDistance_cons_nil (x : Char) (xs : List Char) :
    editDistance (x :: xs) [] = xs.length + 1 := by
  simp [editDistance]

theorem editDistance_cons_cons (x y : Char) (xs ys : List Char) :
    editDistance (x :: xs) (y :: ys) =
      if x = y then editDistance xs ys
      else 1 + min (editDistance xs ys)
        (min (editDistance (x :: xs) ys) (editDistance xs (y :: ys))) := by
  simp [editDistance]

theorem editDistance_self : ∀ l : List Char, editDistance l l = 0 := by
  intro l
  induction l with
  | nil => simp [editDistance_nil_left]
  | cons x xs ih => simp [editDistance_cons_cons, ih]

theorem editDistance_eq_zero :
    ∀ a b : List Char, editDistance a b = 0 → a = b := by
  intro a
  induction a with
  | nil =>
    intro b h
    cases b with
    | nil => rfl
    | cons y ys => simp [editDistance_nil_left] at h
  | cons x xs ih =>
    intro b h
    cases b with
    | nil => simp [editDistance_cons_nil] at h
    | cons y ys =>
      by_cases hxy : x = y
      · subst hxy
        simp only [editDistance_cons_cons, if_pos rfl] at h
        rw [ih ys h]
      · simp [editDistance_cons_cons, hxy] at h

theorem editDistance_single_sub :
    ∀ (a b : List Char) (p : Nat), a.length = b.length → p < a.length →
      a.get? p ≠ b.get? p → (∀ j, j ≠ p → a.get? j = b.get? j) →
      editDistance a b = 1 := by
  intro a
  induction a with
  | nil => intro b p _ hp; simp at hp
  | cons x xs ih =>
    intro b p hlen hp hne hagree
    cases b with
    | nil => simp at hlen
    | cons y ys =>
      cases p with
      | zero =>
        have hxy : x ≠ y := by
          intro h; apply hne; simp [h]
        have hta : xs = ys := by
          apply List.ext_get?
          intro j
          have := hagree (j + 1) (by omega)
          simpa using this
        subst hta
        simp [editDistance_cons_cons, hxy, editDistance_self]
      | succ q =>
        have hxy : x = y := by
          have := hagree 0 (by omega)
          simpa using this
        have : editDistance xs ys = 1 := by
          apply ih ys q (by simpa using hlen) (by simpa using hp)
          · intro h; apply hne; simpa using h
          · intro j hj
            have := hagree (j + 1) (by omega)
            simpa using this
        simp [editDistance_cons_cons, hxy, this]

/-! ### Totality and shape of the annotator on non-empty reads -/

theorem errBody_ok_of_nonempty (r1 r2 : Read) (h1 : r1 ≠ []) (h2 : r2 ≠ []) :
    ∃ t, errBody r1 r2 = .ok t := by
  have hl1 : 0 < r1.length := List.length_pos.mpr h1
  have hl2 : 0 < r2.length := List.length_pos.mpr h2
  rcases hm : firstMismatch r1 r2 with _ | i
  · by_cases he : r1.length = r2.length
    · rcases pyIndex_neg_one_ok r1 h1 with ⟨a, ha⟩
      rcases pyIndex_neg_one_ok r2 h2 with ⟨b, hb⟩
      have hne0 : ¬ ((-1 : Int) = 0) := by omega
      have hnel : ¬ ((-1 : Int) = (r1.length : Int)) := by omega
      simp [errBody, hm, he, ha, hb, hne0, hnel, Bind.bind, Except.bind]
    · by_cases hlt : r1.length < r2.length
      · rcases pyIndex_ok_of_lt r2 r1.length hlt with ⟨b, hb⟩
        rcases pyIndex_neg_one_ok r1 h1 with ⟨a, ha⟩
        have hne0 : ¬ ((r1.length : Int) = 0) := by omega
        simp [errBody, hm, he, hlt, hb, ha, hne0, Bind.bind, Except.bind]
      · have hgt : r2.length < r1.length := by omega
        rcases pyIndex_ok_of_lt r1 r2.length hgt with ⟨a, ha⟩
        rcases pyIndex_neg_one_ok r2 h2 with ⟨b, hb⟩
        have hne0 : ¬ ((r2.length : Int) = 0) := by omega
        simp [errBody, hm, he, hlt, ha, hb, hne0, Bind.bind, Except.bind]
  · have hi := firstMismatch_lt r1 r2 i hm
    rcases pyIndex_ok_of_lt r1 i hi.1 with ⟨a, ha⟩
    rcases pyIndex_ok_of_lt r2 i hi.2 with ⟨b, hb⟩
    by_cases he : r1.length = r2.length
    · by_cases hz : i = 0
      · subst hz
        rw [Nat.cast_zero] at ha hb
        simp [errBody, hm, he, ha, hb, Bind.bind, Except.bind]
      · have hne1 : ¬ i = r1.length := by have := hi.1; omega
        have hne2 : ¬ i = r2.length := by have := hi.2; omega
        have hz' : ¬ ((i : Int) = 0) := by omega
        have hne1' : ¬ ((i : Int) = (r1.length : Int)) := by have := hi.1; omega
        have hne2' : ¬ ((i : Int) = (r2.length : Int)) := by have := hi.2; omega
        simp [errBody, hm, he, ha, hb, hz, hz', hne1, hne2, hne1', hne2',
          Bind.bind, Except.bind]
    · by_cases hlt : r1.length < r2.length
      · by_cases hz : i = 0
        · subst hz
          rcases pyIndex_ok_of_lt r1 0 hl1 with ⟨c, hc⟩
          rw [Nat.cast_zero] at ha hb hc
          simp [errBody, hm, he, hlt, hb, hc, Bind.bind, Except.bind]
        · have hne1 : ¬ i = r1.length := by have := hi.1; omega
          have hz' : ¬ ((i : Int) = 0) := by omega
          have hne1' : ¬ ((i : Int) = (r1.length : Int)) := by
            have := hi.1; omega
          have hsub : (i : Int) - 1 = ((i - 1 : Nat) : Int) := by omega
          have hlt1 : i - 1 < r1.length := by have := hi.1; omega
          rcases pyIndex_ok_of_lt r1 (i - 1) hlt1 with ⟨c1, hc1⟩
          simp [errBody, hm, he, hlt, hb, hz, hz', hne1, hne1', hsub, hc1, ha,
            Bind.bind, Except.bind]
      · by_cases hz : i = 0
        · subst hz
          rcases pyIndex_ok_of_lt r2 0 hl2 with ⟨c, hc⟩
          rw [Nat.cast_zero] at ha hb hc
          simp [errBody, hm, he, hlt, ha, hc, Bind.bind, Except.bind]
        · have hne2 : ¬ i = r2.length := by have := hi.2; omega
          have hz' : ¬ ((i : Int) = 0) := by omega
          have hne2' : ¬ ((i : Int) = (r2.length : Int)) := by
            have := hi.2; omega
          have hsub : (i : Int) - 1 = ((i - 1 : Nat) : Int) := by omega
          have hlt1 : i - 1 < r2.length := by have := hi.2; omega
          rcases pyIndex_ok_of_lt r2 (i - 1) hlt1 with ⟨c1, hc1⟩
          simp [errBody, hm, he, hlt, ha, hz, hz', hne2, hne2', hsub, hc1, hb,
            Bind.bind, Except.bind]

theorem err_type_shape (l : Line) (out : Rec)
    (h : err_type_classification l = .ok out) :
    ∃ et pos fk sk,
      out = [.s l.read1, .i l.read1_fre, .i l.read1_deg, .s et, .i pos, .s fk,
             .s sk, .s l.read2, .i l.read2_fre, .i l.read2_deg] := by
  unfold err_type_classification at h
  by_cases hed : editDistance l.read1 l.read2 = 1
  · rw [if_pos hed] at h
    cases ht : errBody l.read1 l.read2 with
    | error e => rw [ht] at h; simp [Except.map] at h
    | ok t =>
      rw [ht] at h
      simp only [Except.map, Except.ok.injEq] at h
      exact ⟨[t.1, '-', t.2.1], t.2.2.2.2, t.2.2.1, t.2.2.2.1, h.symm⟩
  · rw [if_neg hed] at h
    simp at h

theorem mkRecord_fields (ed : Nat) (l : Line) (r : Rec) (h : mkRecord ed l = .ok r) :
    r.get? (childIdx ed) = some (.s l.read2) ∧ r.get? 0 = some (.s l.read1) := by
  unfold mkRecord at h
  by_cases he : ed = 1
  · rw [if_pos he] at h
    rcases err_type_shape l r h with ⟨et, pos, fk, sk, rfl⟩
    simp [childIdx, he]
  · rw [if_neg he] at h
    simp only [Except.ok.injEq] at h
    subst h
    simp [childIdx, he, lineToList]

/-- Claim C3 (counterexample): the claim says `err_type_classification`
raises exactly when the edit distance is not 1; but at
`read1 = ""`, `read2 = "A"` the distance is 1 and the source still raises
(`'X' + read1[0]` indexes the empty string). -/
theorem claim_c3_counterexample :
    editDistance [] ['A'] = 1 ∧
    err_type_classification ⟨[], 1, 1, ['A'], 1, 1⟩ = .error .indexError := by
  have hed : editDistance [] ['A'] = 1 := by simp [editDistance_nil_left]
  refine ⟨hed, ?_⟩
  simp only [err_type_classification, hed]
  rfl

/-- Claim C3 (amended): for non-empty input reads,
`err_type_classification` succeeds exactly when the edit distance of the
two reads is 1, and on success returns a 10-element annotated record. (The
embedding is pure, so the input line and reads are unchanged by
construction.) -/
theorem claim_c3_raise_iff_distance (l : Line) (h1 : l.read1 ≠ []) (h2 : l.read2 ≠ []) :
    ((∃ out, err_type_classification l = .ok out) ↔
      editDistance l.read1 l.read2 = 1) ∧
    (∀ out, err_type_classification l = .ok out → out.length = 10) := by
  constructor
  · constructor
    · rintro ⟨out, hout⟩
      by_contra hne
      simp [err_type_classification, hne] at hout
    · intro hed
      rcases errBody_ok_of_nonempty l.read1 l.read2 h1 h2 with ⟨t, ht⟩
      refine ⟨[.s l.read1, .i l.read1_fre, .i l.read1_deg, .s [t.1, '-', t.2.1],
        .i t.2.2.2.2, .s t.2.2.1, .s t.2.2.2.1, .s l.read2, .i l.read2_fre,
        .i l.read2_deg], ?_⟩
      simp [err_type_classification, hed, ht, Except.map]
  · intro out hout
    rcases err_type_shape l out hout with ⟨et, pos, fk, sk, rfl⟩
    rfl

/-- Witness for C3's amended theorem at the concrete non-empty pair
`("AC", "AA")`, which is at edit distance 1. -/
theorem claim_c3_witness :
    ((∃ out, err_type_classification ⟨['A', 'C'], 1, 1, ['A', 'A'], 1, 1⟩ = .ok out) ↔
      editDistance ['A', 'C'] ['A', 'A'] = 1) ∧
    (∀ out, err_type_classification ⟨['A', 'C'], 1, 1, ['A', 'A'], 1, 1⟩ = .ok out →
      out.length = 10) :=
  claim_c3_raise_iff_distance ⟨['A', 'C'], 1, 1, ['A', 'A'], 1, 1⟩
    (by simp) (by simp)

/-! ### Slice computations for the equal-length annotation case -/

theorem take_min_length (l : List Char) (n : Nat) : l.take (min n l.length) = l.take n := by
  rw [← List.take_take, List.take_length]

theorem sliceBound_natCast (len n : Nat) : sliceBound len (n : Int) = min n len := by
  have h0 : ¬ ((n : Int) < 0) := by omega
  simp [sliceBound, h0, Int.toNat_natCast]

theorem pySlice_zero_two (l : List Char) : pySlice l 0 2 = l.take 2 := by
  have h2 : sliceBound l.length 2 = min 2 l.length := by
    have := sliceBound_natCast l.length 2
    simpa using this
  have h0 : sliceBound l.length 0 = 0 := by
    have := sliceBound_natCast l.length 0
    simpa using this
  rw [pySlice, h2, h0, List.drop_zero, take_min_length]

theorem pySlice_mid (l : List Char) (p : Nat) (h0 : 0 < p) (hlast : p + 1 < l.length) :
    pySlice l ((p : Int) - 1) ((p : Int) + 2) = (l.drop (p - 1)).take 3 := by
  have ha : (p : Int) - 1 = ((p - 1 : Nat) : Int) := by omega
  have hb : (p : Int) + 2 = ((p + 2 : Nat) : Int) := by omega
  rw [pySlice, ha, hb, sliceBound_natCast, sliceBound_natCast]
  have hm1 : min (p - 1) l.length = p - 1 := by omega
  have hm2 : min (p + 2) l.length = p + 2 := by omega
  rw [hm1, hm2, List.drop_take]
  have : p + 2 - (p - 1) = 3 := by omega
  rw [this]

theorem pySlice_last (l : List Char) (p : Nat) (h0 : 0 < p) (hp : p = l.length - 1)
    (h2 : 2 ≤ l.length) :
    pySlice l ((p : Int) - 1) ((p : Int) + 2) = l.drop (l.length - 2) := by
  have ha : (p : Int) - 1 = ((p - 1 : Nat) : Int) := by omega
  have hb : (p : Int) + 2 = ((p + 2 : Nat) : Int) := by omega
  rw [pySlice, ha, hb, sliceBound_natCast, sliceBound_natCast]
  have hm1 : min (p - 1) l.length = l.length - 2 := by omega
  have hm2 : min (p + 2) l.length = l.length := by omega
  rw [hm1, hm2, List.take_length]

/-- Claim C4: for equal-length reads (length at least 2) differing at the
single position `p`, the annotator reports position `p`, error type
`parent[p] + "-" + child[p]`, and the flanking k-mers of the claim: the
first two characters when `p = 0`, the last two when `p` is the last
index (which the source reaches through slice clamping in its `else`
branch, not through its dead `position == f_len` branch), and the
3-character window centred on `p` otherwise. -/
theorem claim_c4_equal_length_annotated_record (r1 r2 : Read) (c1 d1 c2 d2 : Nat)
    (p : Nat) (a b : Char)
    (hlen : r1.length = r2.length) (h2 : 2 ≤ r1.length) (hp : p < r1.length)
    (ha : r1.get? p = some a) (hb : r2.get? p = some b) (hab : a ≠ b)
    (hagree : ∀ j, j ≠ p → r1.get? j = r2.get? j) :
    err_type_classification ⟨r1, c1, d1, r2, c2, d2⟩ =
      .ok [.s r1, .i c1, .i d1, .s [a, '-', b], .i (p : Int),
           .s (specFlankKmer r1 p), .s (specFlankKmer r2 p),
           .s r2, .i c2, .i d2] := by
  have hne : r1.get? p ≠ r2.get? p := by
    rw [ha, hb]; simp [hab]
  have hed : editDistance r1 r2 = 1 :=
    editDistance_single_sub r1 r2 p hlen hp hne hagree
  have hp2 : p < r2.length := hlen ▸ hp
  have hfm : firstMismatch r1 r2 = some p :=
    firstMismatch_eq_some p r1 r2 hp hp2 (fun j hj => hagree j (by omega)) hne
  have hia := pyIndex_of_get? r1 p a ha
  have hib := pyIndex_of_get? r2 p b hb
  by_cases hz : p = 0
  · subst hz
    rw [Nat.cast_zero] at hia hib
    have hk1 : specFlankKmer r1 0 = r1.take 2 := by
      unfold specFlankKmer; rw [if_pos rfl]
    have hk2 : specFlankKmer r2 0 = r2.take 2 := by
      unfold specFlankKmer; rw [if_pos rfl]
    simp [err_type_classification, hed, errBody, hlen, hfm, hia, hib,
      pySlice_zero_two, hk1, hk2, Bind.bind, Except.bind, Except.map]
  · have hz' : ¬ ((p : Int) = 0) := by omega
    have hne1n : ¬ p = r1.length := by omega
    have hne2n : ¬ p = r2.length := by omega
    have hnel : ¬ ((p : Int) = (r1.length : Int)) := by omega
    have hnel2 : ¬ ((p : Int) = (r2.length : Int)) := by omega
    by_cases hl : p = r1.length - 1
    · have hl2 : p = r2.length - 1 := by omega
      have hk1 : specFlankKmer r1 p = r1.drop (r1.length - 2) := by
        unfold specFlankKmer; rw [if_neg hz, if_pos hl]
      have hk2 : specFlankKmer r2 p = r2.drop (r2.length - 2) := by
        unfold specFlankKmer; rw [if_neg hz, if_pos hl2]
      have hs1 := pySlice_last r1 p (by omega) hl h2
      have hs2 := pySlice_last r2 p (by omega) hl2 (by omega)
      simp [err_type_classification, hed, errBody, hlen, hfm, hia, hib,
        hz, hz', hne1n, hne2n, hnel, hnel2, hs1, hs2, hk1, hk2,
        Bind.bind, Except.bind, Except.map]
    · have hl2 : ¬ p = r2.length - 1 := by omega
      have hk1 : specFlankKmer r1 p = (r1.drop (p - 1)).take 3 := by
        unfold specFlankKmer; rw [if_neg hz, if_neg hl]
      have hk2 : specFlankKmer r2 p = (r2.drop (p - 1)).take 3 := by
        unfold specFlankKmer; rw [if_neg hz, if_neg hl2]
      have hs1 := pySlice_mid r1 p (by omega) (by omega)
      have hs2 := pySlice_mid r2 p (by omega) (by omega)
      simp [err_type_classification, hed, errBody, hlen, hfm, hia, hib,
        hz, hz', hne1n, hne2n, hnel, hnel2, hs1, hs2, hk1, hk2,
        Bind.bind, Except.bind, Except.map]

/-- Witness for C4 at the spec's example: parent "ACGT", child "ACCT" —
error type "G-C", position 2, parent k-mer "CGT", child k-mer "CCT". -/
theorem claim_c4_witness :
    err_type_classification ⟨['A', 'C', 'G', 'T'], 7, 1, ['A', 'C', 'C', 'T'], 1, 1⟩ =
      .ok [.s ['A', 'C', 'G', 'T'], .i 7, .i 1, .s ['G', '-', 'C'], .i 2,
           .s ['C', 'G', 'T'], .s ['C', 'C', 'T'],
           .s ['A', 'C', 'C', 'T'], .i 1, .i 1] := by
  have hagree : ∀ j, j ≠ 2 →
      (['A', 'C', 'G', 'T'] : Read).get? j = (['A', 'C', 'C', 'T'] : Read).get? j := by
    intro j hj
    rcases j with _ | _ | _ | _ | n
    · rfl
    · rfl
    · exact absurd rfl hj
    · rfl
    · rfl
  have h := claim_c4_equal_length_annotated_record ['A', 'C', 'G', 'T'] ['A', 'C', 'C', 'T']
    7 1 1 1 2 'G' 'C' rfl (by decide) (by decide) rfl rfl (by decide) hagree
  have e1 : specFlankKmer ['A', 'C', 'G', 'T'] 2 = ['C', 'G', 'T'] := by decide
  have e2 : specFlankKmer ['A', 'C', 'C', 'T'] 2 = ['C', 'C', 'T'] := by decide
  rw [e1, e2] at h
  simpa using h

/-! ### The per-node emission of the genuine/ambiguous classifier -/

theorem candLoop_mem (cfg : Cfg) (ed : Nat) (g : PyGraph) (node : Read)
    (nc nd : Nat) (lastNei : Read) :
    ∀ (cs : List (Read × Nat)) (rs : List Rec),
      candLoop cfg ed g node nc nd lastNei cs = .ok rs →
      ∀ r ∈ rs, ∃ c ∈ cs, cfg.high_freq_thre ≤ c.2 ∧
        mkRecord ed (candLine g node nc nd lastNei c) = .ok r := by
  intro cs
  induction cs with
  | nil =>
    intro rs h r hr
    simp only [candLoop, Except.ok.injEq] at h
    subst h
    simp at hr
  | cons c cs ih =>
    intro rs h r hr
    by_cases hh : cfg.high_freq_thre ≤ c.2
    · rw [candLoop, if_pos hh] at h
      cases hmk : mkRecord ed (candLine g node nc nd lastNei c) with
      | error e => rw [hmk] at h; simp at h
      | ok r0 =>
        rw [hmk] at h
        cases hcl : candLoop cfg ed g node nc nd lastNei cs with
        | error e => rw [hcl] at h; simp [Except.map] at h
        | ok rs0 =>
          rw [hcl] at h
          simp only [Except.map, Except.ok.injEq] at h
          subst h
          rcases List.mem_cons.mp hr with rfl | hr0
          · exact ⟨c, List.mem_cons_self c cs, hh, hmk⟩
          · rcases ih rs0 hcl r hr0 with ⟨c1, hc1, hh1, hmk1⟩
            exact ⟨c1, List.mem_cons_of_mem c hc1, hh1, hmk1⟩
    · rw [candLoop, if_neg hh] at h
      rcases ih rs h r hr with ⟨c1, hc1, hh1, hmk1⟩
      exact ⟨c1, List.mem_cons_of_mem c hc1, hh1, hmk1⟩

theorem candLoop_forall₂ (cfg : Cfg) (ed : Nat) (g : PyGraph) (node : Read)
    (nc nd : Nat) (lastNei : Read) :
    ∀ (cs : List (Read × Nat)) (rs : List Rec),
      (∀ c ∈ cs, cfg.high_freq_thre ≤ c.2) →
      candLoop cfg ed g node nc nd lastNei cs = .ok rs →
      List.Forall₂ (fun c r => mkRecord ed (candLine g node nc nd lastNei c) = .ok r)
        cs rs := by
  intro cs
  induction cs with
  | nil =>
    intro rs _ h
    simp only [candLoop, Except.ok.injEq] at h
    subst h
    exact List.Forall₂.nil
  | cons c cs ih =>
    intro rs hall h
    have hh : cfg.high_freq_thre ≤ c.2 := hall c (List.mem_cons_self c cs)
    rw [candLoop, if_pos hh] at h
    cases hmk : mkRecord ed (candLine g node nc nd lastNei c) with
    | error e => rw [hmk] at h; simp at h
    | ok r0 =>
      rw [hmk] at h
      cases hcl : candLoop cfg ed g node nc nd lastNei cs with
      | error e => rw [hcl] at h; simp [Except.map] at h
      | ok rs0 =>
        rw [hcl] at h
        simp only [Except.map, Except.ok.injEq] at h
        subst h
        exact List.Forall₂.cons hmk
          (ih rs0 (fun x hx => hall x (List.mem_cons_of_mem c hx)) hcl)

theorem nodeEmission_children (cfg : Cfg) (ed : Nat) (g : PyGraph) (node : Read)
    (gs : List Rec) (ams : List (List Rec))
    (h : nodeEmission cfg ed g node = .ok (gs, ams)) :
    (gs = [] ∨ ams = []) ∧
    (∀ r ∈ gs, r.get? (childIdx ed) = some (.s node)) ∧
    (∀ grp ∈ ams, ∀ r ∈ grp, r.get? (childIdx ed) = some (.s node)) := by
  unfold nodeEmission at h
  dsimp only at h
  by_cases hd1 : (g.adj node).length = 1
  · rw [if_pos hd1] at h
    cases hadj : g.adj node with
    | nil => rw [hadj] at hd1; simp at hd1
    | cons nei rest =>
      rw [hadj] at h
      dsimp only at h
      by_cases hhi : cfg.high_freq_thre ≤ g.count nei
      · rw [if_pos hhi] at h
        cases hmk : mkRecord ed
            ⟨nei, g.count nei, (g.adj nei).length, node, g.count node,
             (nei :: rest).length⟩ with
        | error e => rw [hmk] at h; simp [Except.map] at h
        | ok r0 =>
          rw [hmk] at h
          simp only [Except.map, Except.ok.injEq, Prod.mk.injEq] at h
          rcases h with ⟨hgs, hams⟩
          subst hgs; subst hams
          refine ⟨Or.inr rfl, ?_, by simp⟩
          intro r hr
          rcases List.mem_singleton.mp hr with rfl
          exact (mkRecord_fields ed _ r hmk).1
      · rw [if_neg hhi] at h
        simp only [Except.ok.injEq, Prod.mk.injEq] at h
        rcases h with ⟨hgs, hams⟩
        subst hgs; subst hams
        exact ⟨Or.inl rfl, by simp, by simp⟩
  · rw [if_neg hd1] at h
    by_cases hd2 : (g.adj node).length ≤ cfg.ambiguous_error_node_degree
    · rw [if_pos hd2] at h
      by_cases h1 : (((g.adj node).filter (fun m => cfg.high_freq_thre ≤ g.count m)).map
          (fun m => (m, g.count m))).length = 1
      · rw [if_pos h1] at h
        cases hsort : sortCntDesc (((g.adj node).filter
            (fun m => cfg.high_freq_thre ≤ g.count m)).map (fun m => (m, g.count m))) with
        | nil => rw [hsort] at h; simp at h
        | cons first rest =>
          rw [hsort] at h
          dsimp only at h
          by_cases hhi : cfg.high_freq_thre ≤ first.2
          · rw [if_pos hhi] at h
            cases hmk : mkRecord ed
                ⟨first.1, first.2, (g.adj first.1).length, node, g.count node,
                 (g.adj node).length⟩ with
            | error e => rw [hmk] at h; simp [Except.map] at h
            | ok r0 =>
              rw [hmk] at h
              simp only [Except.map, Except.ok.injEq, Prod.mk.injEq] at h
              rcases h with ⟨hgs, hams⟩
              subst hgs; subst hams
              refine ⟨Or.inr rfl, ?_, by simp⟩
              intro r hr
              rcases List.mem_singleton.mp hr with rfl
              exact (mkRecord_fields ed _ r hmk).1
          · rw [if_neg hhi] at h
            simp only [Except.ok.injEq, Prod.mk.injEq] at h
            rcases h with ⟨hgs, hams⟩
            subst hgs; subst hams
            exact ⟨Or.inl rfl, by simp, by simp⟩
      · rw [if_neg h1] at h
        cases hcl : candLoop cfg ed g node (g.count node) ((g.adj node).length)
            ((g.adj node).getLast?.getD [])
            (((g.adj node).filter (fun m => cfg.high_freq_thre ≤ g.count m)).map
              (fun m => (m, g.count m))) with
        | error e => rw [hcl] at h; simp [Except.map] at h
        | ok tmp =>
          rw [hcl] at h
          simp only [Except.map, Except.ok.injEq, Prod.mk.injEq] at h
          rcases h with ⟨hgs, hams⟩
          subst hgs; subst hams
          refine ⟨Or.inl rfl, by simp, ?_⟩
          intro grp hgrp r hr
          by_cases htmp : tmp.isEmpty
          · rw [if_pos htmp] at hgrp; simp at hgrp
          · rw [if_neg htmp] at hgrp
            rcases List.mem_singleton.mp hgrp with rfl
            rcases candLoop_mem cfg ed g node (g.count node) ((g.adj node).length)
              ((g.adj node).getLast?.getD []) _ grp hcl r hr with ⟨c, _, _, hmk⟩
            exact (mkRecord_fields ed _ r hmk).1
    · rw [if_neg hd2] at h
      simp only [Except.ok.injEq, Prod.mk.injEq] at h
      rcases h with ⟨hgs, hams⟩
      subst hgs; subst hams
      exact ⟨Or.inl rfl, by simp, by simp⟩

theorem processNode_cases (cfg : Cfg) (ed : Nat) (g : PyGraph) (st : GAState)
    (node : Read) (st1 : GAState)
    (h : processNode cfg ed g st node = .ok st1) :
    (¬ (g.count node ≤ cfg.max_error_freq ∧ st.flags node = false) ∧ st1 = st) ∨
    ((g.count node ≤ cfg.max_error_freq ∧ st.flags node = false) ∧
      ∃ gs ams, nodeEmission cfg ed g node = .ok (gs, ams) ∧
        st1 = ⟨st.gen ++ gs, st.ambi ++ ams, setFlag st.flags node⟩) := by
  unfold processNode at h
  by_cases hc : g.count node ≤ cfg.max_error_freq ∧ st.flags node = false
  · rw [if_pos hc] at h
    cases he : nodeEmission cfg ed g node with
    | error e => rw [he] at h; simp at h
    | ok gsams =>
      obtain ⟨gs0, ams0⟩ := gsams
      rw [he] at h
      simp only [Except.ok.injEq] at h
      exact Or.inr ⟨hc, gs0, ams0, rfl, h.symm⟩
  · rw [if_neg hc] at h
    simp only [Except.ok.injEq] at h
    exact Or.inl ⟨hc, h.symm⟩

/-! ### Invariants of the classification loop -/

theorem processNode_mono (cfg : Cfg) (ed : Nat) (g : PyGraph) (st : GAState)
    (node : Read) (st1 : GAState) (h : processNode cfg ed g st node = .ok st1) :
    (∀ r ∈ st.gen, r ∈ st1.gen) ∧ (∀ a ∈ st.ambi, a ∈ st1.ambi) ∧
    (∀ m, st.flags m = true → st1.flags m = true) := by
  rcases processNode_cases cfg ed g st node st1 h with ⟨_, rfl⟩ | ⟨_, gs, ams, _, rfl⟩
  · exact ⟨fun r hr => hr, fun a ha => ha, fun m hm => hm⟩
  · refine ⟨fun r hr => List.mem_append_left _ hr,
      fun a ha => List.mem_append_left _ ha, ?_⟩
    intro m hm
    by_cases hmn : m = node <;> simp [setFlag, hmn, hm]

theorem processNode_flag_other (cfg : Cfg) (ed : Nat) (g : PyGraph) (st : GAState)
    (node : Read) (st1 : GAState) (h : processNode cfg ed g st node = .ok st1) :
    ∀ m, m ≠ node → st1.flags m = st.flags m := by
  intro m hmn
  rcases processNode_cases cfg ed g st node st1 h with ⟨_, rfl⟩ | ⟨_, gs, ams, _, rfl⟩
  · rfl
  · simp [setFlag, hmn]

theorem processNode_flag_covered (cfg : Cfg) (ed : Nat) (g : PyGraph) (st : GAState)
    (node : Read) (st1 : GAState) (h : processNode cfg ed g st node = .ok st1)
    (hcnt : g.count node ≤ cfg.max_error_freq) : st1.flags node = true := by
  rcases processNode_cases cfg ed g st node st1 h with ⟨hc, he⟩ | ⟨_, gs, ams, _, he⟩
  · rcases Bool.eq_false_or_eq_true (st.flags node) with hf | hf
    · rw [he]; exact hf
    · exact absurd ⟨hcnt, hf⟩ hc
  · rw [he]; simp [setFlag]

theorem gaLoop_mono (cfg : Cfg) (ed : Nat) (g : PyGraph) :
    ∀ (ns : List Read) (st st' : GAState), gaLoop cfg ed g ns st = .ok st' →
      (∀ r ∈ st.gen, r ∈ st'.gen) ∧ (∀ a ∈ st.ambi, a ∈ st'.ambi) ∧
      (∀ m, st.flags m = true → st'.flags m = true) := by
  intro ns
  induction ns with
  | nil =>
    intro st st' h
    simp only [gaLoop, Except.ok.injEq] at h
    subst h
    exact ⟨fun r hr => hr, fun a ha => ha, fun m hm => hm⟩
  | cons n ns ih =>
    intro st st' h
    rw [gaLoop] at h
    cases hp : processNode cfg ed g st n with
    | error e => rw [hp] at h; simp at h
    | ok st1 =>
      rw [hp] at h
      have h1 := processNode_mono cfg ed g st n st1 hp
      have h2 := ih st1 st' h
      exact ⟨fun r hr => h2.1 r (h1.1 r hr), fun a ha => h2.2.1 a (h1.2.1 a ha),
        fun m hm => h2.2.2 m (h1.2.2 m hm)⟩

theorem gaLoop_flag_other (cfg : Cfg) (ed : Nat) (g : PyGraph) :
    ∀ (ns : List Read) (st st' : GAState), gaLoop cfg ed g ns st = .ok st' →
      ∀ m, m ∉ ns → st'.flags m = st.flags m := by
  intro ns
  induction ns with
  | nil =>
    intro st st' h m _
    simp only [gaLoop, Except.ok.injEq] at h
    subst h
    rfl
  | cons n ns ih =>
    intro st st' h m hm
    rw [gaLoop] at h
    cases hp : processNode cfg ed g st n with
    | error e => rw [hp] at h; simp at h
    | ok st1 =>
      rw [hp] at h
      have hmn : m ≠ n := fun he => hm (he ▸ List.mem_cons_self n ns)
      have hm2 : m ∉ ns := fun he => hm (List.mem_cons_of_mem n he)
      rw [ih st1 st' h m hm2, processNode_flag_other cfg ed g st n st1 hp m hmn]

theorem gaLoop_flag_covered (cfg : Cfg) (ed : Nat) (g : PyGraph) :
    ∀ (ns : List Read) (st st' : GAState), gaLoop cfg ed g ns st = .ok st' →
      ∀ m ∈ ns, g.count m ≤ cfg.max_error_freq → st'.flags m = true := by
  intro ns
  induction ns with
  | nil => intro st st' _ m hm; simp at hm
  | cons n ns ih =>
    intro st st' h m hm hcnt
    rw [gaLoop] at h
    cases hp : processNode cfg ed g st n with
    | error e => rw [hp] at h; simp at h
    | ok st1 =>
      rw [hp] at h
      rcases List.mem_cons.mp hm with rfl | hm2
      · exact (gaLoop_mono cfg ed g ns st1 st' h).2.2 m
          (processNode_flag_covered cfg ed g st m st1 hp hcnt)
      · exact ih st1 st' h m hm2 hcnt

theorem gaLoop_skip_all (cfg : Cfg) (ed : Nat) (g : PyGraph) :
    ∀ (ns : List Read) (st : GAState),
      (∀ m ∈ ns, ¬ (g.count m ≤ cfg.max_error_freq ∧ st.flags m = false)) →
      gaLoop cfg ed g ns st = .ok st := by
  intro ns
  induction ns with
  | nil => intro st _; rfl
  | cons n ns ih =>
    intro st hall
    have hn : processNode cfg ed g st n = .ok st := by
      unfold processNode
      rw [if_neg (hall n (List.mem_cons_self n ns))]
    rw [gaLoop, hn]
    exact ih st (fun m hm => hall m (List.mem_cons_of_mem n hm))

theorem gaLoop_gen_origin (cfg : Cfg) (ed : Nat) (g : PyGraph) :
    ∀ (ns : List Read) (st st' : GAState), gaLoop cfg ed g ns st = .ok st' →
      ∀ r ∈ st'.gen, r ∈ st.gen ∨ ∃ n ∈ ns, g.count n ≤ cfg.max_error_freq ∧
        ∃ gs ams, nodeEmission cfg ed g n = .ok (gs, ams) ∧ r ∈ gs := by
  intro ns
  induction ns with
  | nil =>
    intro st st' h r hr
    simp only [gaLoop, Except.ok.injEq] at h
    subst h
    exact Or.inl hr
  | cons n ns ih =>
    intro st st' h r hr
    rw [gaLoop] at h
    cases hp : processNode cfg ed g st n with
    | error e => rw [hp] at h; simp at h
    | ok st1 =>
      rw [hp] at h
      rcases ih st1 st' h r hr with hin | ⟨n1, hn1, hcnt1, gs, ams, hemit, hrg⟩
      · rcases processNode_cases cfg ed g st n st1 hp with ⟨_, rfl⟩ | ⟨hc, gs, ams, hemit, rfl⟩
        · exact Or.inl hin
        · rcases List.mem_append.mp hin with hin1 | hin2
          · exact Or.inl hin1
          · exact Or.inr ⟨n, List.mem_cons_self n ns, hc.1, gs, ams, hemit, hin2⟩
      · exact Or.inr ⟨n1, List.mem_cons_of_mem n hn1, hcnt1, gs, ams, hemit, hrg⟩

theorem gaLoop_ambi_origin (cfg : Cfg) (ed : Nat) (g : PyGraph) :
    ∀ (ns : List Read) (st st' : GAState), gaLoop cfg ed g ns st = .ok st' →
      ∀ a ∈ st'.ambi, a ∈ st.ambi ∨ ∃ n ∈ ns, g.count n ≤ cfg.max_error_freq ∧
        ∃ gs ams, nodeEmission cfg ed g n = .ok (gs, ams) ∧ a ∈ ams := by
  intro ns
  induction ns with
  | nil =>
    intro st st' h a ha
    simp only [gaLoop, Except.ok.injEq] at h
    subst h
    exact Or.inl ha
  | cons n ns ih =>
    intro st st' h a ha
    rw [gaLoop] at h
    cases hp : processNode cfg ed g st n with
    | error e => rw [hp] at h; simp at h
    | ok st1 =>
      rw [hp] at h
      rcases ih st1 st' h a ha with hin | ⟨n1, hn1, hcnt1, gs, ams, hemit, hag⟩
      · rcases processNode_cases cfg ed g st n st1 hp with ⟨_, rfl⟩ | ⟨hc, gs, ams, hemit, rfl⟩
        · exact Or.inl hin
        · rcases List.mem_append.mp hin with hin1 | hin2
          · exact Or.inl hin1
          · exact Or.inr ⟨n, List.mem_cons_self n ns, hc.1, gs, ams, hemit, hin2⟩
      · exact Or.inr ⟨n1, List.mem_cons_of_mem n hn1, hcnt1, gs, ams, hemit, hag⟩

theorem gaLoop_complete (cfg : Cfg) (ed : Nat) (g : PyGraph) :
    ∀ (ns : List Read) (st st' : GAState), ns.Nodup →
      gaLoop cfg ed g ns st = .ok st' →
      ∀ n ∈ ns, g.count n ≤ cfg.max_error_freq → st.flags n = false →
      ∃ gs ams, nodeEmission cfg ed g n = .ok (gs, ams) ∧
        (∀ r ∈ gs, r ∈ st'.gen) ∧ (∀ a ∈ ams, a ∈ st'.ambi) := by
  intro ns
  induction ns with
  | nil => intro st st' _ _ n hn; simp at hn
  | cons k ns ih =>
    intro st st' hnd h n hn hcnt hflag
    rw [gaLoop] at h
    cases hp : processNode cfg ed g st k with
    | error e => rw [hp] at h; simp at h
    | ok st1 =>
      rw [hp] at h
      rcases List.mem_cons.mp hn with rfl | hn2
      · rcases processNode_cases cfg ed g st n st1 hp with ⟨hc, rfl⟩ | ⟨_, gs, ams, hemit, rfl⟩
        · exact absurd ⟨hcnt, hflag⟩ hc
        · have hm := gaLoop_mono cfg ed g ns _ st' h
          exact ⟨gs, ams, hemit,
            fun r hr => hm.1 r (List.mem_append_right _ hr),
            fun a ha => hm.2.1 a (List.mem_append_right _ ha)⟩
      · have hkn : n ≠ k := by
          intro he
          subst he
          exact (List.nodup_cons.mp hnd).1 hn2
        have hflag1 : st1.flags n = false := by
          rw [processNode_flag_other cfg ed g st k st1 hp n hkn]
          exact hflag
        exact ih st1 st' (List.nodup_cons.mp hnd).2 h n hn2 hcnt hflag1

theorem extract_ok_elim (cfg : Cfg) (ed : Nat) (g : PyGraph) (flags0 : Read → Bool)
    (gens : List Rec) (ambis : List (List Rec)) (flagsOut : Read → Bool)
    (h : extract_genuine_ambi_errs_subgraph cfg ed g flags0 = .ok (gens, ambis, flagsOut)) :
    (hasEdges g = false ∧ gens = [] ∧ ambis = [] ∧ flagsOut = flags0) ∨
    (hasEdges g = true ∧ ∃ st : GAState,
      gaLoop cfg ed g g.nodes ⟨[], [], flags0⟩ = .ok st ∧
      gens = st.gen ∧ ambis = st.ambi ∧ flagsOut = st.flags) := by
  unfold extract_genuine_ambi_errs_subgraph at h
  by_cases he : hasEdges g
  · rw [if_pos he] at h
    cases hl : gaLoop cfg ed g g.nodes ⟨[], [], flags0⟩ with
    | error e => rw [hl] at h; simp [Except.map] at h
    | ok st =>
      rw [hl] at h
      simp only [Except.map, Except.ok.injEq, Prod.mk.injEq] at h
      exact Or.inr ⟨he, st, rfl, h.1.symm, h.2.1.symm, h.2.2.symm⟩
  · rw [if_neg he] at h
    simp only [Except.ok.injEq, Prod.mk.injEq] at h
    exact Or.inl ⟨Bool.of_not_eq_true he, h.1.symm, h.2.1.symm, h.2.2.symm⟩

/-- Claim C9: running `extract_genuine_ambi_errs_subgraph` a second time on
the same subgraph object (i.e. with the flags the completed first pass left
behind) yields zero new records — it returns two empty lists — because
after the first pass every node either carries the visited flag or is
filtered by `count > max_error_freq` again. -/
theorem claim_c9_idempotent (cfg : Cfg) (ed : Nat) (g : PyGraph)
    (flags0 : Read → Bool) (gens : List Rec) (ambis : List (List Rec))
    (flags1 : Read → Bool)
    (h : extract_genuine_ambi_errs_subgraph cfg ed g flags0 = .ok (gens, ambis, flags1)) :
    extract_genuine_ambi_errs_subgraph cfg ed g flags1 = .ok ([], [], flags1) := by
  rcases extract_ok_elim cfg ed g flags0 gens ambis flags1 h with
    ⟨hne, _, _, rfl⟩ | ⟨he, st, hl, _, _, rfl⟩
  · unfold extract_genuine_ambi_errs_subgraph
    simp [hne]
  · have hcov : ∀ m ∈ g.nodes, g.count m ≤ cfg.max_error_freq → st.flags m = true :=
      fun m hm hc => gaLoop_flag_covered cfg ed g g.nodes _ st hl m hm hc
    have hskip : gaLoop cfg ed g g.nodes ⟨[], [], st.flags⟩ = .ok ⟨[], [], st.flags⟩ := by
      apply gaLoop_skip_all
      rintro m hm ⟨hc1, hc2⟩
      rw [hcov m hm hc1] at hc2
      simp at hc2
    unfold extract_genuine_ambi_errs_subgraph
    rw [if_pos he, hskip]
    rfl

/-- Witness for C9: the two-node component `g0` after its first pass. -/
theorem claim_c9_witness :
    extract_genuine_ambi_errs_subgraph cfg0 2 g0 (setFlag flags0 rC) =
      .ok ([], [], setFlag flags0 rC) :=
  claim_c9_idempotent cfg0 2 g0 flags0 [lineToList ⟨rA, 5, 1, rC, 1, 1⟩] []
    (setFlag flags0 rC) rfl

/-- Claim C8: one pass partitions the component's nodes into genuine-error
children, ambiguous-error children, count-filtered nodes, and
eligible-but-unclassified nodes: the child sets lie inside the node set and
inside the count bound, no node is a child in both record sets, and every
node falls in exactly one of the four classes. -/
theorem claim_c8_partition (cfg : Cfg) (ed : Nat) (g : PyGraph)
    (flags0 : Read → Bool) (flagsOut : Read → Bool)
    (gens : List Rec) (ambis : List (List Rec))
    (h : extract_genuine_ambi_errs_subgraph cfg ed g flags0 = .ok (gens, ambis, flagsOut)) :
    (∀ n, isGenChild ed gens n → n ∈ g.nodes ∧ g.count n ≤ cfg.max_error_freq) ∧
    (∀ n, isAmbiChild ed ambis n → n ∈ g.nodes ∧ g.count n ≤ cfg.max_error_freq) ∧
    (∀ n, ¬ (isGenChild ed gens n ∧ isAmbiChild ed ambis n)) ∧
    (∀ n ∈ g.nodes, isGenChild ed gens n ∨ isAmbiChild ed ambis n ∨
      cfg.max_error_freq < g.count n ∨
      (g.count n ≤ cfg.max_error_freq ∧ ¬ isGenChild ed gens n ∧
        ¬ isAmbiChild ed ambis n)) := by
  have hgen : ∀ n, isGenChild ed gens n →
      n ∈ g.nodes ∧ g.count n ≤ cfg.max_error_freq ∧
      ∃ gs ams, nodeEmission cfg ed g n = .ok (gs, ams) ∧ gs ≠ [] := by
    intro n hn
    rcases hn with ⟨r, hr, hchild⟩
    rcases extract_ok_elim cfg ed g flags0 gens ambis flagsOut h with
      ⟨_, rfl, _, _⟩ | ⟨_, st, hl, rfl, _, _⟩
    · simp at hr
    · rcases gaLoop_gen_origin cfg ed g g.nodes _ st hl r hr with hin | hor
      · simp at hin
      · rcases hor with ⟨n1, hn1, hcnt1, gs, ams, hemit, hrg⟩
        have hch := (nodeEmission_children cfg ed g n1 gs ams hemit).2.1 r hrg
        rw [hchild] at hch
        have : n = n1 := by
          have := Option.some.inj hch
          exact (Val.s.inj this.symm).symm
        subst this
        exact ⟨hn1, hcnt1, gs, ams, hemit, fun he => by simp [he] at hrg⟩
  have hambi : ∀ n, isAmbiChild ed ambis n →
      n ∈ g.nodes ∧ g.count n ≤ cfg.max_error_freq ∧
      ∃ gs ams, nodeEmission cfg ed g n = .ok (gs, ams) ∧ ams ≠ [] := by
    intro n hn
    rcases hn with ⟨grp, hgrp, r, hr, hchild⟩
    rcases extract_ok_elim cfg ed g flags0 gens ambis flagsOut h with
      ⟨_, _, rfl, _⟩ | ⟨_, st, hl, _, rfl, _⟩
    · simp at hgrp
    · rcases gaLoop_ambi_origin cfg ed g g.nodes _ st hl grp hgrp with hin | hor
      · simp at hin
      · rcases hor with ⟨n1, hn1, hcnt1, gs, ams, hemit, hag⟩
        have hch := (nodeEmission_children cfg ed g n1 gs ams hemit).2.2 grp hag r hr
        rw [hchild] at hch
        have : n = n1 := by
          have := Option.some.inj hch
          exact (Val.s.inj this.symm).symm
        subst this
        exact ⟨hn1, hcnt1, gs, ams, hemit, fun he => by simp [he] at hag⟩
  refine ⟨fun n hn => ⟨(hgen n hn).1, (hgen n hn).2.1⟩,
    fun n hn => ⟨(hambi n hn).1, (hambi n hn).2.1⟩, ?_, ?_⟩
  · rintro n ⟨h1, h2⟩
    rcases (hgen n h1).2.2 with ⟨gs, ams, hemit, hgs⟩
    rcases (hambi n h2).2.2 with ⟨gs1, ams1, hemit1, hams1⟩
    rw [hemit] at hemit1
    have hpr : (gs, ams) = (gs1, ams1) := Except.ok.inj hemit1
    rcases (nodeEmission_children cfg ed g n gs ams hemit).1 with hA | hB
    · exact hgs hA
    · apply hams1
      have h2' : ams = ams1 := by
        have := congrArg Prod.snd hpr
        simpa using this
      rw [← h2']
      exact hB
  · intro n _
    by_cases h1 : isGenChild ed gens n
    · exact Or.inl h1
    · by_cases h2 : isAmbiChild ed ambis n
      · exact Or.inr (Or.inl h2)
      · by_cases h3 : cfg.max_error_freq < g.count n
        · exact Or.inr (Or.inr (Or.inl h3))
        · exact Or.inr (Or.inr (Or.inr ⟨by omega, h1, h2⟩))

/-- Witness for C8: on the concrete component `g2` the ambiguous child `rA`
is not simultaneously a genuine child. -/
theorem claim_c8_witness :
    ¬ (isGenChild 2 [] rA ∧
       isAmbiChild 2 [[[.s rC, .i 10, .i 2, .s rA, .i 1, .i 2],
                       [.s rG, .i 10, .i 2, .s rA, .i 1, .i 2]]] rA) :=
  (claim_c8_partition cfg0 2 g2 flags0 (setFlag flags0 rA) []
    [[[.s rC, .i 10, .i 2, .s rA, .i 1, .i 2],
      [.s rG, .i 10, .i 2, .s rA, .i 1, .i 2]]] rfl).2.2.1 rA

/-- Claim C2 (code bug): in the ambiguous branch the source computes
`cur_nei_degree = sub_graph.degree[nei]` from the stale loop variable `nei`
(the child's last neighbour) instead of the candidate `cre_nei`. On `g2`
both candidates are emitted with StartDegree 2 — the degree of the last
neighbour `rG` — although the first candidate's own parent `rC` has
degree 1. -/
theorem claim_c2_stale_degree_bug :
    (extract_genuine_ambi_errs_subgraph cfg0 2 g2 flags0).map
      (fun r => (r.1, r.2.1)) =
      .ok ([], [[[.s rC, .i 10, .i 2, .s rA, .i 1, .i 2],
                 [.s rG, .i 10, .i 2, .s rA, .i 1, .i 2]]]) ∧
    (g2.adj rC).length = 1 ∧ (g2.adj rG).length = 2 :=
  ⟨rfl, rfl, rfl⟩

/-! ### Case computations of the per-node emission -/

theorem nodeEmission_deg1_high (cfg : Cfg) (ed : Nat) (g : PyGraph) (n nei : Read)
    (hadj : g.adj n = [nei]) (hhi : cfg.high_freq_thre ≤ g.count nei) :
    nodeEmission cfg ed g n =
      (mkRecord ed ⟨nei, g.count nei, (g.adj nei).length, n, g.count n, 1⟩).map
        (fun r => ([r], [])) := by
  unfold nodeEmission
  rw [hadj]
  simp [hhi]

theorem nodeEmission_deg1_low (cfg : Cfg) (ed : Nat) (g : PyGraph) (n nei : Read)
    (hadj : g.adj n = [nei]) (hlo : g.count nei < cfg.high_freq_thre) :
    nodeEmission cfg ed g n = .ok ([], []) := by
  unfold nodeEmission
  rw [hadj]
  simp [Nat.not_le.mpr hlo]

theorem nodeEmission_no_high (cfg : Cfg) (ed : Nat) (g : PyGraph) (n : Read)
    (hd1 : 1 < (g.adj n).length) (hd2 : (g.adj n).length ≤ cfg.ambiguous_error_node_degree)
    (hh : highNeis cfg g n = []) :
    nodeEmission cfg ed g n = .ok ([], []) := by
  have hne1 : ¬ (g.adj n).length = 1 := by omega
  unfold nodeEmission
  unfold highNeis at hh
  rw [if_neg hne1, if_pos hd2, hh]
  simp [candLoop, Except.map]

theorem nodeEmission_one_high (cfg : Cfg) (ed : Nat) (g : PyGraph) (n p : Read)
    (hd1 : 1 < (g.adj n).length) (hd2 : (g.adj n).length ≤ cfg.ambiguous_error_node_degree)
    (hh : highNeis cfg g n = [p]) :
    nodeEmission cfg ed g n =
      (mkRecord ed ⟨p, g.count p, (g.adj p).length, n, g.count n,
        (g.adj n).length⟩).map (fun r => ([r], [])) := by
  have hne1 : ¬ (g.adj n).length = 1 := by omega
  have hp : p ∈ highNeis cfg g n := by rw [hh]; exact List.mem_singleton_self p
  have hphi : cfg.high_freq_thre ≤ g.count p := by
    have := List.mem_filter.mp hp
    simpa using this.2
  unfold nodeEmission
  unfold highNeis at hh
  rw [if_neg hne1, if_pos hd2, hh]
  simp [sortCntDesc, insertCnt, hphi]

theorem nodeEmission_many_high (cfg : Cfg) (ed : Nat) (g : PyGraph) (n : Read)
    (hd1 : 1 < (g.adj n).length) (hd2 : (g.adj n).length ≤ cfg.ambiguous_error_node_degree)
    (hh : 2 ≤ (highNeis cfg g n).length) :
    nodeEmission cfg ed g n =
      (candLoop cfg ed g n (g.count n) ((g.adj n).length)
        ((g.adj n).getLast?.getD [])
        ((highNeis cfg g n).map (fun m => (m, g.count m)))).map
        (fun tmp => ([], if tmp.isEmpty then [] else [tmp])) := by
  have hne1 : ¬ (g.adj n).length = 1 := by omega
  have hlen : ¬ (((g.adj n).filter (fun m => cfg.high_freq_thre ≤ g.count m)).map
      (fun m => (m, g.count m))).length = 1 := by
    rw [List.length_map]
    unfold highNeis at hh
    omega
  unfold nodeEmission
  unfold highNeis
  rw [if_neg hne1, if_pos hd2, if_neg hlen]

theorem nodeEmission_over_degree (cfg : Cfg) (ed : Nat) (g : PyGraph) (n : Read)
    (hd1 : 1 < (g.adj n).length)
    (hd2 : cfg.ambiguous_error_node_degree < (g.adj n).length) :
    nodeEmission cfg ed g n = .ok ([], []) := by
  have hne1 : ¬ (g.adj n).length = 1 := by omega
  have hne2 : ¬ (g.adj n).length ≤ cfg.ambiguous_error_node_degree := by omega
  unfold nodeEmission
  rw [if_neg hne1, if_neg hne2]

/-- Claim C1: in a component with at least one edge, an unvisited node with
`count ≤ max_error_freq` makes `extract_genuine_ambi_errs_subgraph` emit:
a genuine record with the sole neighbour as parent when its degree is 1 and
that neighbour is high-frequency (nothing when it is low-frequency); for
`1 < degree ≤ ambiguous_error_node_degree` a genuine record when exactly
one neighbour is high-frequency, an ambiguous group with one candidate per
high-frequency neighbour — all sharing the node as child — when more than
one is, and nothing when none is; and nothing when the degree exceeds the
ambiguous bound. -/
theorem claim_c1_emission_cases (cfg : Cfg) (ed : Nat) (g : PyGraph)
    (flags0 flagsOut : Read → Bool) (gens : List Rec) (ambis : List (List Rec))
    (n : Read)
    (hedge : hasEdges g = true) (hnd : g.nodes.Nodup) (hmem : n ∈ g.nodes)
    (hcnt : g.count n ≤ cfg.max_error_freq) (hflag : flags0 n = false)
    (h : extract_genuine_ambi_errs_subgraph cfg ed g flags0 = .ok (gens, ambis, flagsOut)) :
    (∀ nei, g.adj n = [nei] → cfg.high_freq_thre ≤ g.count nei →
      ∃ r, mkRecord ed ⟨nei, g.count nei, (g.adj nei).length, n, g.count n, 1⟩ = .ok r ∧
        r ∈ gens) ∧
    (∀ nei, g.adj n = [nei] → g.count nei < cfg.high_freq_thre →
      noChildRecord ed gens ambis n) ∧
    (1 < (g.adj n).length → (g.adj n).length ≤ cfg.ambiguous_error_node_degree →
      (∀ p, highNeis cfg g n = [p] →
        ∃ r, mkRecord ed ⟨p, g.count p, (g.adj p).length, n, g.count n,
          (g.adj n).length⟩ = .ok r ∧ r ∈ gens) ∧
      (2 ≤ (highNeis cfg g n).length →
        ∃ grp ∈ ambis, List.Forall₂
          (fun p r => r.get? 0 = some (.s p) ∧ r.get? (childIdx ed) = some (.s n))
          (highNeis cfg g n) grp) ∧
      (highNeis cfg g n = [] → noChildRecord ed gens ambis n)) ∧
    (1 < (g.adj n).length → cfg.ambiguous_error_node_degree < (g.adj n).length →
      noChildRecord ed gens ambis n) := by
  rcases extract_ok_elim cfg ed g flags0 gens ambis flagsOut h with
    ⟨hne, _, _, _⟩ | ⟨_, st, hl, rfl, rfl, rfl⟩
  · rw [hedge] at hne; cases hne
  rcases gaLoop_complete cfg ed g g.nodes ⟨[], [], flags0⟩ st hnd hl n hmem hcnt hflag with
    ⟨gs, ams, hemit, hsubg, hsuba⟩
  have hnochild : gs = [] → ams = [] → noChildRecord ed st.gen st.ambi n := by
    intro hg0 ha0
    constructor
    · intro r hr hchild
      rcases gaLoop_gen_origin cfg ed g g.nodes _ st hl r hr with hin | hor
      · simp at hin
      · rcases hor with ⟨n1, _, _, gs1, ams1, hemit1, hr1⟩
        have hch := (nodeEmission_children cfg ed g n1 gs1 ams1 hemit1).2.1 r hr1
        have hn1 : n1 = n := Val.s.inj (Option.some.inj (hch.symm.trans hchild))
        subst hn1
        rw [hemit] at hemit1
        have := Except.ok.inj hemit1
        have hg1 : gs1 = [] := by
          rw [hg0] at this
          exact (congrArg Prod.fst this).symm
        rw [hg1] at hr1
        simp at hr1
    · intro grp hgrp r hr hchild
      rcases gaLoop_ambi_origin cfg ed g g.nodes _ st hl grp hgrp with hin | hor
      · simp at hin
      · rcases hor with ⟨n1, _, _, gs1, ams1, hemit1, ha1⟩
        have hch := (nodeEmission_children cfg ed g n1 gs1 ams1 hemit1).2.2 grp ha1 r hr
        have hn1 : n1 = n := Val.s.inj (Option.some.inj (hch.symm.trans hchild))
        subst hn1
        rw [hemit] at hemit1
        have := Except.ok.inj hemit1
        have ha2 : ams1 = [] := by
          rw [ha0] at this
          exact (congrArg Prod.snd this).symm
        rw [ha2] at ha1
        simp at ha1
  refine ⟨?_, ?_, ?_, ?_⟩
  · intro nei hadj hhi
    have he := nodeEmission_deg1_high cfg ed g n nei hadj hhi
    rw [he] at hemit
    cases hmk : mkRecord ed ⟨nei, g.count nei, (g.adj nei).length, n, g.count n, 1⟩ with
    | error e => rw [hmk] at hemit; simp [Except.map] at hemit
    | ok r =>
      rw [hmk] at hemit
      simp only [Except.map, Except.ok.injEq, Prod.mk.injEq] at hemit
      refine ⟨r, rfl, ?_⟩
      apply hsubg
      rw [← hemit.1]
      exact List.mem_singleton_self r
  · intro nei hadj hlo
    have he := nodeEmission_deg1_low cfg ed g n nei hadj hlo
    rw [he] at hemit
    simp only [Except.ok.injEq, Prod.mk.injEq] at hemit
    exact hnochild hemit.1.symm hemit.2.symm
  · intro hd1 hd2
    refine ⟨?_, ?_, ?_⟩
    · intro p hp
      have he := nodeEmission_one_high cfg ed g n p hd1 hd2 hp
      rw [he] at hemit
      cases hmk : mkRecord ed ⟨p, g.count p, (g.adj p).length, n, g.count n,
          (g.adj n).length⟩ with
      | error e => rw [hmk] at hemit; simp [Except.map] at hemit
      | ok r =>
        rw [hmk] at hemit
        simp only [Except.map, Except.ok.injEq, Prod.mk.injEq] at hemit
        refine ⟨r, rfl, ?_⟩
        apply hsubg
        rw [← hemit.1]
        exact List.mem_singleton_self r
    · intro hh2
      have he := nodeEmission_many_high cfg ed g n hd1 hd2 hh2
      rw [he] at hemit
      cases hcl : candLoop cfg ed g n (g.count n) ((g.adj n).length)
          ((g.adj n).getLast?.getD [])
          ((highNeis cfg g n).map (fun m => (m, g.count m))) with
      | error e => rw [hcl] at hemit; simp [Except.map] at hemit
      | ok tmp =>
        rw [hcl] at hemit
        simp only [Except.map, Except.ok.injEq, Prod.mk.injEq] at hemit
        have hall : ∀ c ∈ (highNeis cfg g n).map (fun m => (m, g.count m)),
            cfg.high_freq_thre ≤ c.2 := by
          intro c hc
          rcases List.mem_map.mp hc with ⟨m, hm, rfl⟩
          have := List.mem_filter.mp hm
          simpa using this.2
        have hf2 := candLoop_forall₂ cfg ed g n (g.count n) ((g.adj n).length)
          ((g.adj n).getLast?.getD []) _ tmp hall hcl
        have hf3 : List.Forall₂
            (fun p r => r.get? 0 = some (.s p) ∧ r.get? (childIdx ed) = some (.s n))
            (highNeis cfg g n) tmp := by
          rw [List.forall₂_map_left_iff] at hf2
          refine hf2.imp ?_
          intro p r hmk
          exact ⟨(mkRecord_fields ed _ r hmk).2, (mkRecord_fields ed _ r hmk).1⟩
        have hlen : tmp.length = (highNeis cfg g n).length := hf3.length_eq.symm
        have htne : ¬ tmp.isEmpty := by
          rw [List.isEmpty_iff]
          intro habs
          rw [habs] at hlen
          simp at hlen
          omega
        refine ⟨tmp, ?_, hf3⟩
        apply hsuba
        rw [← hemit.2, if_neg htne]
        exact List.mem_singleton_self tmp
    · intro hh0
      have he := nodeEmission_no_high cfg ed g n hd1 hd2 hh0
      rw [he] at hemit
      simp only [Except.ok.injEq, Prod.mk.injEq] at hemit
      exact hnochild hemit.1.symm hemit.2.symm
  · intro hd1 hd2
    have he := nodeEmission_over_degree cfg ed g n hd1 hd2
    rw [he] at hemit
    simp only [Except.ok.injEq, Prod.mk.injEq] at hemit
    exact hnochild hemit.1.symm hemit.2.symm

/-! ### Invariants of the UMI scoring pass -/

theorem umiNodeStep_cases (cfg : Cfg) (g : PyGraph) (st : UmiState) (node : Read)
    (st1 : UmiState) (h : umiNodeStep cfg g st node = .ok st1) :
    (st1 = st) ∨
    ((1 ≤ (g.adj node).length ∧ (g.adj node).length ≤ 4 ∧
       g.count node ≤ cfg.max_error_freq ∧ st.flags node = false) ∧
     ∃ first rest newline, sortScoreDesc (umiScores g node) = first :: rest ∧
       cfg.high_freq_thre ≤ first.2.2 ∧
       err_type_classification ⟨first.1, first.2.2, (g.adj first.1).length, node,
         g.count node, (g.adj node).length⟩ = .ok newline ∧
       st1 = ⟨st.gen ++ [newline], setFlag st.flags node⟩) := by
  unfold umiNodeStep at h
  by_cases hc : 1 ≤ (g.adj node).length ∧ (g.adj node).length ≤ 4 ∧
      g.count node ≤ cfg.max_error_freq ∧ st.flags node = false
  · rw [if_pos hc] at h
    cases hs : sortScoreDesc (umiScores g node) with
    | nil => rw [hs] at h; simp at h
    | cons first rest =>
      rw [hs] at h
      dsimp only at h
      by_cases hhi : cfg.high_freq_thre ≤ first.2.2
      · rw [if_pos hhi] at h
        cases het : err_type_classification ⟨first.1, first.2.2, (g.adj first.1).length,
            node, g.count node, (g.adj node).length⟩ with
        | error e => rw [het] at h; simp at h
        | ok newline =>
          rw [het] at h
          simp only [Except.ok.injEq] at h
          exact Or.inr ⟨hc, first, rest, newline, rfl, hhi, het, h.symm⟩
      · rw [if_neg hhi] at h
        simp only [Except.ok.injEq] at h
        exact Or.inl h.symm
  · rw [if_neg hc] at h
    simp only [Except.ok.injEq] at h
    exact Or.inl h.symm

theorem umiNodeStep_flag_other (cfg : Cfg) (g : PyGraph) (st : UmiState) (node : Read)
    (st1 : UmiState) (h : umiNodeStep cfg g st node = .ok st1) :
    ∀ m, m ≠ node → st1.flags m = st.flags m := by
  intro m hm
  rcases umiNodeStep_cases cfg g st node st1 h with rfl | ⟨_, f, r, nl, _, _, _, he⟩
  · rfl
  · rw [he]; simp [setFlag, hm]

theorem umiNodeStep_lowbest (cfg : Cfg) (g : PyGraph) (st : UmiState) (n : Read)
    (first : Read × ℚ × Nat) (rest : List (Read × ℚ × Nat))
    (hs : sortScoreDesc (umiScores g n) = first :: rest)
    (hlow : first.2.2 < cfg.high_freq_thre) :
    umiNodeStep cfg g st n = .ok st := by
  unfold umiNodeStep
  by_cases hc : 1 ≤ (g.adj n).length ∧ (g.adj n).length ≤ 4 ∧
      g.count n ≤ cfg.max_error_freq ∧ st.flags n = false
  · rw [if_pos hc, hs]
    dsimp only
    rw [if_neg (Nat.not_le.mpr hlow)]
  · rw [if_neg hc]

theorem umiLoop_mono (cfg : Cfg) (g : PyGraph) :
    ∀ (ns : List Read) (st st' : UmiState), umiLoop cfg g ns st = .ok st' →
      (∀ r ∈ st.gen, r ∈ st'.gen) ∧ (∀ m, st.flags m = true → st'.flags m = true) := by
  intro ns
  induction ns with
  | nil =>
    intro st st' h
    simp only [umiLoop, Except.ok.injEq] at h
    subst h
    exact ⟨fun r hr => hr, fun m hm => hm⟩
  | cons n ns ih =>
    intro st st' h
    rw [umiLoop] at h
    cases hp : umiNodeStep cfg g st n with
    | error e => rw [hp] at h; simp at h
    | ok st1 =>
      rw [hp] at h
      have h2 := ih st1 st' h
      rcases umiNodeStep_cases cfg g st n st1 hp with rfl | ⟨_, f, r, nl, _, _, _, he⟩
      · exact h2
      · subst he
        refine ⟨fun r hr => h2.1 r (List.mem_append_left _ hr), ?_⟩
        intro m hm
        apply h2.2 m
        by_cases hmn : m = n <;> simp [setFlag, hmn, hm]

theorem umiLoop_flag_origin (cfg : Cfg) (g : PyGraph) :
    ∀ (ns : List Read) (st st' : UmiState), umiLoop cfg g ns st = .ok st' →
      ∀ m, st'.flags m = true →
        st.flags m = true ∨ ∃ r ∈ st'.gen, r.get? 7 = some (.s m) := by
  intro ns
  induction ns with
  | nil =>
    intro st st' h m hm
    simp only [umiLoop, Except.ok.injEq] at h
    subst h
    exact Or.inl hm
  | cons n ns ih =>
    intro st st' h m hm
    rw [umiLoop] at h
    cases hp : umiNodeStep cfg g st n with
    | error e => rw [hp] at h; simp at h
    | ok st1 =>
      rw [hp] at h
      rcases ih st1 st' h m hm with h1 | h2
      · rcases umiNodeStep_cases cfg g st n st1 hp with rfl | ⟨_, f, r, nl, _, _, het, he⟩
        · exact Or.inl h1
        · subst he
          by_cases hmn : m = n
          · subst hmn
            refine Or.inr ⟨nl, (umiLoop_mono cfg g ns _ st' h).1 nl
              (List.mem_append_right _ (List.mem_singleton_self nl)), ?_⟩
            rcases err_type_shape _ nl het with ⟨et, pos, fk, sk, rfl⟩
            rfl
          · simp only [setFlag] at h1
            rw [if_neg hmn] at h1
            exact Or.inl h1
      · exact Or.inr h2

theorem umiLoop_gen_origin (cfg : Cfg) (g : PyGraph) :
    ∀ (ns : List Read) (st st' : UmiState), umiLoop cfg g ns st = .ok st' →
      ∀ r ∈ st'.gen, r ∈ st.gen ∨ ∃ n ∈ ns,
        (1 ≤ (g.adj n).length ∧ (g.adj n).length ≤ 4 ∧
          g.count n ≤ cfg.max_error_freq) ∧
        ∃ first rest, sortScoreDesc (umiScores g n) = first :: rest ∧
          cfg.high_freq_thre ≤ first.2.2 ∧
          err_type_classification ⟨first.1, first.2.2, (g.adj first.1).length, n,
            g.count n, (g.adj n).length⟩ = .ok r := by
  intro ns
  induction ns with
  | nil =>
    intro st st' h r hr
    simp only [umiLoop, Except.ok.injEq] at h
    subst h
    exact Or.inl hr
  | cons n ns ih =>
    intro st st' h r hr
    rw [umiLoop] at h
    cases hp : umiNodeStep cfg g st n with
    | error e => rw [hp] at h; simp at h
    | ok st1 =>
      rw [hp] at h
      rcases ih st1 st' h r hr with h1 | ⟨n1, hn1, he1, f1, r1, hs1, hh1, het1⟩
      · rcases umiNodeStep_cases cfg g st n st1 hp with rfl | ⟨hel, f, rst, nl, hs, hh, het, he⟩
        · exact Or.inl h1
        · subst he
          rcases List.mem_append.mp h1 with h2 | h2
          · exact Or.inl h2
          · rcases List.mem_singleton.mp h2 with rfl
            exact Or.inr ⟨n, List.mem_cons_self n ns, ⟨hel.1, hel.2.1, hel.2.2.1⟩,
              f, rst, hs, hh, het⟩
      · exact Or.inr ⟨n1, List.mem_cons_of_mem n hn1, he1, f1, r1, hs1, hh1, het1⟩

theorem umiLoop_lowbest_flag (cfg : Cfg) (g : PyGraph) (n : Read)
    (first : Read × ℚ × Nat) (rest : List (Read × ℚ × Nat))
    (hs : sortScoreDesc (umiScores g n) = first :: rest)
    (hlow : first.2.2 < cfg.high_freq_thre) :
    ∀ (ns : List Read) (st st' : UmiState), umiLoop cfg g ns st = .ok st' →
      st'.flags n = st.flags n := by
  intro ns
  induction ns with
  | nil =>
    intro st st' h
    simp only [umiLoop, Except.ok.injEq] at h
    subst h
    rfl
  | cons k ns ih =>
    intro st st' h
    rw [umiLoop] at h
    cases hp : umiNodeStep cfg g st k with
    | error e => rw [hp] at h; simp at h
    | ok st1 =>
      rw [hp] at h
      by_cases hkn : k = n
      · subst hkn
        rw [umiNodeStep_lowbest cfg g st k first rest hs hlow] at hp
        have hst : st1 = st := (Except.ok.inj hp).symm
        rw [hst] at h
        exact ih st st' h
      · rw [ih st1 st' h, umiNodeStep_flag_other cfg g st k st1 hp n
          (fun he => hkn he.symm)]

theorem extract_umi_ok_elim (cfg : Cfg) (g : PyGraph) (flags0 : Read → Bool)
    (recs : List Rec) (flags1 : Read → Bool)
    (h : extract_umi_genuine_errs_subgraph cfg g flags0 = .ok (recs, flags1)) :
    (hasEdges g = false ∧ recs = [] ∧ flags1 = flags0) ∨
    (hasEdges g = true ∧ ∃ st : UmiState,
      umiLoop cfg g g.nodes ⟨[], flags0⟩ = .ok st ∧
      recs = st.gen ∧ flags1 = st.flags) := by
  unfold extract_umi_genuine_errs_subgraph at h
  by_cases he : hasEdges g
  · rw [if_pos he] at h
    cases hl : umiLoop cfg g g.nodes ⟨[], flags0⟩ with
    | error e => rw [hl] at h; simp [Except.map] at h
    | ok st =>
      rw [hl] at h
      simp only [Except.map, Except.ok.injEq, Prod.mk.injEq] at h
      exact Or.inr ⟨he, st, rfl, h.1.symm, h.2.symm⟩
  · rw [if_neg he] at h
    simp only [Except.ok.injEq, Prod.mk.injEq] at h
    exact Or.inl ⟨Bool.of_not_eq_true he, h.1.symm, h.2.symm⟩

/-- Claim C10: in the UMI variant a node's flag becomes true only when a
genuine record with that node as child was actually emitted; records are
emitted only for nodes of degree 1..4 with `count ≤ max_error_freq` whose
maximum-score neighbour is high-frequency; and a node whose best-scored
neighbour is low-frequency keeps its incoming flag (in particular it
remains unvisited after the pass). -/
theorem claim_c10_umi_flag_discipline (cfg : Cfg) (g : PyGraph)
    (flags0 flags1 : Read → Bool) (recs : List Rec)
    (h : extract_umi_genuine_errs_subgraph cfg g flags0 = .ok (recs, flags1)) :
    (∀ m, flags1 m = true → flags0 m = true ∨ ∃ r ∈ recs, r.get? 7 = some (.s m)) ∧
    (∀ r ∈ recs, ∃ n ∈ g.nodes, r.get? 7 = some (.s n) ∧
      1 ≤ (g.adj n).length ∧ (g.adj n).length ≤ 4 ∧
      g.count n ≤ cfg.max_error_freq ∧
      ∃ first rest, sortScoreDesc (umiScores g n) = first :: rest ∧
        cfg.high_freq_thre ≤ first.2.2) ∧
    (∀ n (first : Read × ℚ × Nat) rest,
      sortScoreDesc (umiScores g n) = first :: rest →
      first.2.2 < cfg.high_freq_thre → flags1 n = flags0 n) := by
  rcases extract_umi_ok_elim cfg g flags0 recs flags1 h with
    ⟨_, rfl, rfl⟩ | ⟨_, st, hl, rfl, rfl⟩
  · exact ⟨fun m hm => Or.inl hm, by simp, fun n f r _ _ => rfl⟩
  · refine ⟨?_, ?_, ?_⟩
    · intro m hm
      rcases umiLoop_flag_origin cfg g g.nodes _ st hl m hm with h1 | h2
      · exact Or.inl h1
      · exact Or.inr h2
    · intro r hr
      rcases umiLoop_gen_origin cfg g g.nodes _ st hl r hr with h1 | hor
      · simp at h1
      · rcases hor with ⟨n, hn, ⟨hd1, hd2, hcnt⟩, first, rest, hs, hh, het⟩
        refine ⟨n, hn, ?_, hd1, hd2, hcnt, first, rest, hs, hh⟩
        rcases err_type_shape _ r het with ⟨et, pos, fk, sk, rfl⟩
        rfl
    · intro n first rest hs hlow
      exact umiLoop_lowbest_flag cfg g n first rest hs hlow g.nodes _ st hl

theorem umi_gU_pass : extract_umi_genuine_errs_subgraph cfg0 gU flags0 =
    .ok ([uRec], setFlag flags0 uAC) := by
  have hline : err_type_classification ⟨uAA, 9, 1, uAC, 1, 2⟩ = .ok uRec := by
    have hed : editDistance uAA uAC = 1 := by
      simp [uAA, uAC, editDistance_cons_cons, editDistance_nil_left]
    simp only [err_type_classification, hed]
    rfl
  have hsc : umiScores gU uAC =
      [(uAA, ((1 : Nat) : ℚ) * 0.5 + ((9 : Nat) : ℚ) * 0.5, 9),
       (uCC, ((1 : Nat) : ℚ) * 0.5 + ((1 : Nat) : ℚ) * 0.5, 1)] := rfl
  have hcmp : (((1 : Nat) : ℚ) * 0.5 + ((1 : Nat) : ℚ) * 0.5) ≤
      ((1 : Nat) : ℚ) * 0.5 + ((9 : Nat) : ℚ) * 0.5 := by norm_num
  have hsort : sortScoreDesc (umiScores gU uAC) =
      [(uAA, ((1 : Nat) : ℚ) * 0.5 + ((9 : Nat) : ℚ) * 0.5, 9),
       (uCC, ((1 : Nat) : ℚ) * 0.5 + ((1 : Nat) : ℚ) * 0.5, 1)] := by
    rw [hsc]
    simp only [sortScoreDesc, List.foldr, insertScore, if_pos hcmp]
  have hstep1 : umiNodeStep cfg0 gU ⟨[], flags0⟩ uAC =
      .ok ⟨[uRec], setFlag flags0 uAC⟩ := by
    unfold umiNodeStep
    rw [if_pos (by decide), hsort]
    dsimp only
    rw [if_pos (by decide : cfg0.high_freq_thre ≤ 9)]
    rw [show (⟨uAA, 9, (gU.adj uAA).length, uAC, gU.count uAC, (gU.adj uAC).length⟩ : Line)
      = ⟨uAA, 9, 1, uAC, 1, 2⟩ from rfl]
    rw [hline]
    rfl
  have hstep2 : umiNodeStep cfg0 gU ⟨[uRec], setFlag flags0 uAC⟩ uAA =
      .ok ⟨[uRec], setFlag flags0 uAC⟩ := by
    unfold umiNodeStep
    rw [if_neg (by decide)]
  have hsortC : sortScoreDesc (umiScores gU uCC) =
      [(uAC, ((2 : Nat) : ℚ) * 0.5 + ((1 : Nat) : ℚ) * 0.5, 1)] := rfl
  have hstep3 : umiNodeStep cfg0 gU ⟨[uRec], setFlag flags0 uAC⟩ uCC =
      .ok ⟨[uRec], setFlag flags0 uAC⟩ := by
    unfold umiNodeStep
    rw [if_pos (by decide), hsortC]
    dsimp only
    rw [if_neg (by decide : ¬ cfg0.high_freq_thre ≤ 1)]
  unfold extract_umi_genuine_errs_subgraph
  rw [if_pos (by decide)]
  show (umiLoop cfg0 gU [uAC, uAA, uCC] ⟨[], flags0⟩).map
    (fun st => (st.gen, st.flags)) = _
  simp only [umiLoop]
  rw [hstep1]
  dsimp only
  rw [hstep2]
  dsimp only
  rw [hstep3]
  rfl

/-- Witness for C10 on the concrete UMI component `gU`: the flag of the
emitted child `uAC` is accounted for by its record, and the node `uCC`,
whose only (hence best-scored) neighbour is low-frequency, keeps its flag. -/
theorem claim_c10_witness :
    (flags0 uAC = true ∨ ∃ r ∈ [uRec], r.get? 7 = some (.s uAC)) ∧
    (setFlag flags0 uAC) uCC = flags0 uCC := by
  have h := claim_c10_umi_flag_discipline cfg0 gU flags0 (setFlag flags0 uAC)
    [uRec] umi_gU_pass
  exact ⟨h.1 uAC rfl,
    h.2.2 uCC (uAC, ((2 : Nat) : ℚ) * 0.5 + ((1 : Nat) : ℚ) * 0.5, 1) [] rfl (by decide)⟩

/-- Witness for C1 on `g0`: the degree-1 child `rC` with high-frequency
sole neighbour `rA` yields a genuine record among the emitted ones. -/
theorem claim_c1_witness :
    ∃ r, mkRecord 2 ⟨rA, g0.count rA, (g0.adj rA).length, rC, g0.count rC, 1⟩ = .ok r ∧
      r ∈ [lineToList ⟨rA, 5, 1, rC, 1, 1⟩] :=
  (claim_c1_emission_cases cfg0 2 g0 flags0 (setFlag flags0 rC)
    [lineToList ⟨rA, 5, 1, rC, 1, 1⟩] [] rC rfl (by decide) (by decide) (by decide)
    rfl rfl).1 rA rfl (by decide)

/-- Claim C5: for edit distance 1 or 2, `generate_graph` aborts with exit
code 1 exactly when no unique read reaches the high-frequency threshold.
The check sits before the mode branch, so the abort precedes every
neighbour search: the searches occur only inside the non-aborting branch. -/
theorem claim_c5_abort_iff_no_high (cfg : Cfg) (total_seqs : List Read) (ed : Nat)
    (hed : ed = 1 ∨ ed = 2) :
    generate_graph cfg total_seqs ed = .error 1 ↔
      ∀ r ∈ firstOccur total_seqs, total_seqs.count r < cfg.high_freq_thre := by
  unfold generate_graph
  by_cases hh : ((firstOccur total_seqs).filter
      (fun r => cfg.high_freq_thre ≤ total_seqs.count r)).isEmpty
  · rw [if_pos hh]
    constructor
    · intro _ r hr
      by_contra hcon
      have hhi : cfg.high_freq_thre ≤ total_seqs.count r := Nat.not_lt.mp hcon
      have hmem : r ∈ (firstOccur total_seqs).filter
          (fun r => cfg.high_freq_thre ≤ total_seqs.count r) :=
        List.mem_filter.mpr ⟨hr, by simpa using hhi⟩
      rw [List.isEmpty_iff] at hh
      rw [hh] at hmem
      simp at hmem
    · intro _
      rfl
  · rw [if_neg hh]
    constructor
    · intro habs
      rcases hed with rfl | rfl
      · simp at habs
      · simp at habs
    · intro hall
      exfalso
      apply hh
      rw [List.isEmpty_iff, List.filter_eq_nil_iff]
      intro r hr
      simp only [decide_eq_true_eq]
      exact Nat.not_le.mpr (hall r hr)

/-- Witness for C5: a dataset whose only read occurs once (below the
threshold 5) makes `generate_graph` exit with code 1. -/
theorem claim_c5_witness : generate_graph cfg0 seqs5 1 = .error 1 :=
  (claim_c5_abort_iff_no_high cfg0 seqs5 1 (Or.inl rfl)).mpr (by decide)

/-- Claim C6: every edge `generate_graph` produces pairs a high-frequency
query read with a member of the mode's candidate universe that lies in the
query's enumerated neighbourhood — the whole unique-read set in
edit-distance-1 mode, only the low-frequency reads in edit-distance-2
mode. -/
theorem claim_c6_edges_from_universe (cfg : Cfg) (total_seqs : List Read) (ed : Nat)
    (G : GGraph) (hed : ed = 1 ∨ ed = 2)
    (h : generate_graph cfg total_seqs ed = .ok G) :
    ∀ e ∈ G.edges,
      cfg.high_freq_thre ≤ total_seqs.count e.1 ∧ e.1 ∈ firstOccur total_seqs ∧
      e.2 ∈ (if ed = 1 then enumerate_ed1_seqs e.1 else enumerate_ed2_seqs e.1) ∧
      e.2 ∈ (if ed = 1 then firstOccur total_seqs
             else (firstOccur total_seqs).filter
               (fun r => total_seqs.count r < cfg.high_freq_thre)) := by
  intro e he
  unfold generate_graph at h
  by_cases hh : ((firstOccur total_seqs).filter
      (fun r => cfg.high_freq_thre ≤ total_seqs.count r)).isEmpty
  · rw [if_pos hh] at h
    simp at h
  · rw [if_neg hh] at h
    rcases hed with rfl | rfl
    · rw [if_pos rfl] at h
      have hG := Except.ok.inj h
      rw [← hG] at he
      rcases List.mem_flatMap.mp he with ⟨q, hq, he2⟩
      unfold real_ed1_seqs at he2
      rcases List.mem_map.mp he2 with ⟨s, hs, rfl⟩
      rcases List.mem_filter.mp hs with ⟨hsenum, hsmem⟩
      rcases List.mem_filter.mp hq with ⟨hqmem, hqhigh⟩
      exact ⟨by simpa using hqhigh, hqmem, by simpa using hsenum, by simpa using hsmem⟩
    · rw [if_neg (by omega), if_pos rfl] at h
      have hG := Except.ok.inj h
      rw [← hG] at he
      rcases List.mem_flatMap.mp he with ⟨q, hq, he2⟩
      unfold real_ed2_seqs at he2
      rcases List.mem_map.mp he2 with ⟨s, hs, rfl⟩
      rcases List.mem_filter.mp hs with ⟨hsenum, hsmem⟩
      rcases List.mem_filter.mp hq with ⟨hqmem, hqhigh⟩
      refine ⟨by simpa using hqhigh, hqmem, by simpa using hsenum, ?_⟩
      rw [if_neg (by omega)]
      simpa using hsmem

/-- Witness for C6: on `seqs6` ("A" five times, "C" once) the single edge
`("A", "C")` joins the high-frequency query to a unique-set member of its
enumerated neighbourhood. -/
theorem claim_c6_witness :
    cfg0.high_freq_thre ≤ seqs6.count rA ∧ rA ∈ firstOccur seqs6 ∧
    rC ∈ (if 1 = 1 then enumerate_ed1_seqs rA else enumerate_ed2_seqs rA) ∧
    rC ∈ (if 1 = 1 then firstOccur seqs6
          else (firstOccur seqs6).filter
            (fun r => seqs6.count r < cfg0.high_freq_thre)) :=
  claim_c6_edges_from_universe cfg0 seqs6 1 gg6 (Or.inl rfl) rfl (rA, rC) (by decide)

/-- Claim C7 (code bug): `extract_isolated_negatives` assigns `isolates`
only under `not nx.is_connected(graph)` and then reads it unconditionally,
so a connected graph — which has no degree-0 node and per the claim should
yield an empty dataframe — makes the source raise `NameError` instead. On
a disconnected graph the behaviour matches the claim: one record per
isolated node with `count ≥ high_freq_thre`, none for low-count isolates. -/
theorem claim_c7_connected_graph_raises :
    extract_isolated_negatives cfg0 gConn = .error .nameError ∧
    (∀ k ∈ gConn.nodes, gConn.adj k ≠ []) ∧
    extract_isolated_negatives cfg0 gDisc = .ok [[.s rA, .i 9, .i 0]] ∧
    (gDisc.adj rA = [] ∧ cfg0.high_freq_thre ≤ gDisc.count rA) ∧
    (gDisc.adj rC = [] ∧ gDisc.count rC < cfg0.high_freq_thre) :=
  ⟨rfl, by decide, rfl, by decide, by decide⟩
